import Mathlib

/-!
# ircd client connection lifecycle (src/ircd/client.cc) and neighbours

A shallow embedding of the inbound connection code of `ircd/client.cc`:
`handle_request`, `client::serve`, `client::main`, `handle_ec` and its three
helpers, `async_recv_next`, `add_client`, `disconnect` and `disconnect_all`,
the read closure, `readline`, `string(host_port)` and the registry of clients;
of the destructor of `server::request` (`include/ircd/server/request.h`); of
`fpe::throw_errors` and `fpe::reflect` (`ircd/fpe.cc`); and of
`room_state_linear_events`, `room_state_polylog_events` and
`room_state_phased_member_events` (`modules/client/sync/rooms/state.cc`).
Texts are lists of characters.

Side effects on the socket and on the request pool are recorded, in program
order, in a log of `event`s kept in the connection state. What the peer, the
HTTP parser and the resource handlers do is not decided by `client.cc`; it is
supplied as a script (`http.request`, `pipeline`, `cycle`) and every theorem
quantifies over the scripts. Logging calls (`log::debug` and friends) have no
effect on control flow and are left out.
-/

namespace ircd

/-! ## Constants -/

/-- Durations are counted in milliseconds; `async_timeout` is `3h` (client.cc:32-35). -/
def async_timeout : Int := 3 * 60 * 60 * 1000

/-- The per-request timeout `request_timeout` is `300s` (client.cc:37-40). -/
def request_timeout : Int := 300 * 1000

namespace errc

/-- Value of `boost::system::errc::success`. -/
def success : Int := 0

/-- Value of `boost::system::errc::operation_canceled` (ECANCELED). -/
def operation_canceled : Int := 125

/-- Value of `boost::system::errc::not_connected` (ENOTCONN). -/
def not_connected : Int := 107

end errc

/-- Value of `boost::asio::error::eof`. -/
def eof : Int := 2

namespace http

/-- Modelled from the spec: the status enumeration `http::code` is declared in
ircd/http.h, which is not under src/; the three enumerators that client.cc
names carry their HTTP status numbers. -/
def BAD_REQUEST : Nat := 400

/-- Modelled from the spec: `http::REQUEST_TIMEOUT`, see `BAD_REQUEST`. -/
def REQUEST_TIMEOUT : Nat := 408

/-- Modelled from the spec: `http::INTERNAL_SERVER_ERROR`, see `BAD_REQUEST`. -/
def INTERNAL_SERVER_ERROR : Nat := 500

/-- A status is a client error when it is a 4xx number. -/
def client_error (code : Nat) : Prop := 400 ≤ code ∧ code < 500

/-- A status is a server error when it is a 5xx number. -/
def server_error (code : Nat) : Prop := 500 ≤ code ∧ code < 600

instance (code : Nat) : Decidable (client_error code) :=
  inferInstanceAs (Decidable (400 ≤ code ∧ code < 500))

instance (code : Nat) : Decidable (server_error code) :=
  inferInstanceAs (Decidable (500 ≤ code ∧ code < 600))

end http

/-! ## Data model -/

/-- What can be thrown, as far as the catch clauses of client.cc tell it apart:
`http::error` with its status code, `boost::system::system_error` with the
value of its error code, any other exception derived from `std::exception`, and
an object of a type that is not derived from `std::exception`, which no catch
clause of client.cc matches. -/
inductive exception where
  | http_error (code : Nat)
  | system_error (ec : Int)
  | std_exception (what : String)
  | non_std
  deriving DecidableEq, Repr

/-- The disconnect modes of `socket::dc` that client.cc names. -/
inductive dc where
  | RST
  | FIN
  | FIN_RECV
  deriving DecidableEq, Repr

/-- One observable step of a connection, in program order.
`resource path timer` records the call `resource(client, pc, head)` together
with the state of the socket timer at the moment of the call. -/
inductive event where
  /-- The call `sock.set_timeout(d, ...)`: the request timer is armed. -/
  | set_timeout (d : Int)
  /-- The constructor of `http::request` is entered: parsing begins. -/
  | parse
  /-- The call `sock.timer.cancel()`: the request timer is disarmed. -/
  | timer_cancel
  /-- The handler found by `resource::find(path)` is invoked. -/
  | resource (path : String) (timer : Option Int)
  /-- The call `sock.disconnect(type)`. -/
  | disconnect (type : dc)
  /-- The call `sock(timeout, handler)`: an asynchronous read is scheduled. -/
  | async_recv (timeout : Int)
  /-- The completion handler of the asynchronous read runs with `ec`. -/
  | completion (ec : Int)
  /-- The call `request(task)`: a read-then-serve task is submitted to the request pool. -/
  | submit
  /-- The call `client->main()` returned `b` inside the submitted task. -/
  | main_returned (b : Bool)
  deriving DecidableEq, Repr

/-- The state of one inbound connection: the deadline armed on its socket
timer, if any, and the log of what has been done with it so far. -/
structure client where
  timer : Option Int
  log : List event
  deriving DecidableEq, Repr

/-- Append one event to the log of a connection. -/
def client.emit (c : client) (e : event) : client :=
  { c with log := c.log ++ [e] }

/-- The fields of `http::request::head` that client.cc reads. -/
structure http.request.head where
  method : String
  path : String
  content_length : Nat
  deriving DecidableEq, Repr

/-- What happens once a parsed head is handed to
`handle_request(client &, parse::capstan &, const http::request::head &)`. -/
inductive resource where
  /-- The lookup `resource::find(head.path)` throws `e`: no handler is invoked. -/
  | unfound (e : exception)
  /-- The handler is invoked and returns. -/
  | returns
  /-- The handler is invoked and throws `e`. -/
  | throws (e : exception)
  /-- The handler is invoked, pulls body bytes through the read closure, and
  one of those socket reads fails with `system_error(ec)`. -/
  | read_error (ec : Int)
  deriving DecidableEq, Repr

/-- Modelled from the spec: the constructor of `http::request` lives in
ircd/http.cc, which is not under src/. The spec has it read bytes until a
complete request head is recognised and then hand the parsed head to the
request handler, which pulls the body itself through the read closure. One
construction therefore goes one of three ways. -/
inductive http.request where
  /-- A socket read made through the read closure fails with
  `system_error(ec)` before a head is complete. -/
  | read_error (ec : Int)
  /-- The parser throws `e` before a head is complete (a malformed head). -/
  | throws (e : exception)
  /-- A head is fully parsed and proffered; `r` is what the handler side does. -/
  | proffers (h : http.request.head) (r : resource)
  deriving DecidableEq, Repr

/-- The requests one call of `client::serve` goes through: `pc.unparsed()` is
true after every request but the last. -/
inductive pipeline where
  | last (rq : http.request)
  | more (rq : http.request) (rest : pipeline)
  deriving DecidableEq, Repr

/-- The requests of a pipeline, in order. -/
def pipeline.toList : pipeline → List http.request
  | .last rq => [rq]
  | .more rq rest => rq :: rest.toList

/-- One completion of the asynchronous read: its error code, and the requests
served by the task submitted for it when there is one. -/
structure cycle where
  ec : Int
  requests : pipeline
  deriving DecidableEq, Repr

/-- What client.cc reads from outside itself: the run-time flag
`ircd::debugmode`, whether `assert` is compiled out (`NDEBUG`), and the default
argument of `socket::disconnect`, declared in ircd/socket.h (not under src/). -/
structure env where
  debugmode : Bool
  NDEBUG : Bool
  dc_default : dc
  deriving DecidableEq, Repr

/-- How a `noexcept` function ends: it returns, or the process is terminated
(`std::terminate`, or `abort` from a failed `assert`). -/
inductive outcome where
  | returned (b : Bool)
  | terminated
  deriving DecidableEq, Repr

/-- Where a connection stands after the completions of a script have run. -/
inductive status where
  /-- A read is scheduled and has not completed. -/
  | awaiting
  /-- No read is scheduled and no task is pending: the connection is over. -/
  | closed
  /-- The process was terminated. -/
  | terminated
  deriving DecidableEq, Repr

/-! ## Operations -/

/-- The `handle_error` switch of `read_closure` (client.cc:175-185): the
exception that leaves the read closure when the socket read throws
`system_error(ec)`. -/
def read_closure.handle_error (ec : Int) : exception :=
  if ec = errc.operation_canceled then .http_error http.REQUEST_TIMEOUT
  else .system_error ec

/-- Embeds `handle_request(client &, parse::capstan &, const http::request::head &)`
(client.cc:348-361): find the resource for the head's path and invoke it. -/
def handle_request_head (h : http.request.head) (r : resource) (c : client) :
    Except exception Unit × client :=
  match r with
  | .unfound e => (.error e, c)
  | .returns => (.ok (), c.emit (.resource h.path c.timer))
  | .throws e => (.error e, c.emit (.resource h.path c.timer))
  | .read_error ec =>
    (.error (read_closure.handle_error ec), c.emit (.resource h.path c.timer))

/-- The closure `handle_request` passes to `http::request` (client.cc:322-327):
cancel the socket timer, then dispatch the head. -/
def handle_request.proffer (h : http.request.head) (r : resource) (c : client) :
    Except exception Unit × client :=
  handle_request_head h r ({ c with timer := none }.emit .timer_cancel)

/-- Modelled from the spec: the construction of `http::request` with the
proffer closure of `handle_request` (ircd/http.cc is not under src/). Errors
met before the head is complete leave without calling the closure; a complete
head is proffered, and what the closure throws propagates. -/
def http.request.construct (rq : http.request) (c : client) :
    Except exception Unit × client :=
  match rq with
  | .read_error ec => (.error (read_closure.handle_error ec), c.emit .parse)
  | .throws e => (.error e, c.emit .parse)
  | .proffers h r => handle_request.proffer h r (c.emit .parse)

/-- The try block of `handle_request(client &, parse::capstan &)`
(client.cc:313-330) up to, and without, `return true`. -/
def handle_request.try_block (rq : http.request) (c : client) :
    Except exception Unit × client :=
  http.request.construct rq
    ({ c with timer := some request_timeout }.emit (.set_timeout request_timeout))

/-- Embeds `handle_request(client &, parse::capstan &)` (client.cc:308-346). -/
def handle_request (rq : http.request) (c : client) : Except exception Bool × client :=
  match handle_request.try_block rq c with
  | (.ok (), c1) => (.ok true, c1)
  | (.error (.http_error code), c1) =>
    if code = http.BAD_REQUEST then (.ok false, c1)
    else if code = http.INTERNAL_SERVER_ERROR then (.ok false, c1)
    else if code = http.REQUEST_TIMEOUT then (.ok false, c1)
    else (.ok true, c1)
  | (.error e, c1) => (.error e, c1)

/-- The try block of `client::serve` (client.cc:283-294): the do-while loop
over `handle_request`. -/
def client.serve.try_block : pipeline → client → Except exception Bool × client
  | .last rq, c => handle_request rq c
  | .more rq rest, c =>
    match handle_request rq c with
    | (.ok true, c1) => client.serve.try_block rest c1
    | (.ok false, c1) => (.ok false, c1)
    | (.error e, c1) => (.error e, c1)

/-- Embeds `client::serve` (client.cc:279-306). The handler of its function
try block is `catch(const std::exception &)`: it rethrows in debug mode and
returns false otherwise; a thrown object of any other type is not caught and
leaves `serve` whatever `debugmode` is. -/
def client.serve (debugmode : Bool) (p : pipeline) (c : client) :
    Except exception Bool × client :=
  match client.serve.try_block p c with
  | (.ok b, c1) => (.ok b, c1)
  | (.error .non_std, c1) => (.error .non_std, c1)
  | (.error e, c1) => if debugmode then (.error e, c1) else (.ok false, c1)

/-- Embeds `client::main` (client.cc:231-270). Its handlers are
`catch(const boost::system::system_error &)` and `catch(const std::exception &)`;
the function is `noexcept`, so a thrown object that neither handler matches
ends in `std::terminate` whatever `debugmode` is. -/
def client.main (v : env) (p : pipeline) (c : client) : outcome × client :=
  match client.serve v.debugmode p c with
  | (.ok b, c1) => (.returned b, c1)
  | (.error (.system_error ec), c1) =>
    if ec = errc.success then
      (if v.NDEBUG then .returned true else .terminated, c1)
    else if ec = errc.operation_canceled then (.returned false, c1)
    else if ec = errc.not_connected then (.returned false, c1)
    else (if v.debugmode then .terminated else .returned false, c1)
  | (.error .non_std, c1) => (.terminated, c1)
  | (.error _, c1) => (if v.debugmode then .terminated else .returned false, c1)

/-- Embeds `disconnect(client &, const socket::dc &)` (client.cc:395-401). Its
declaration gives the mode the default `socket::dc::FIN` (client.cc:58); the one
caller in client.cc, `disconnect_all`, passes the mode itself. -/
def disconnect (c : client) (type : dc) : client :=
  c.emit (.disconnect type)

/-- Embeds `disconnect_all` (client.cc:382-393), over the registry of live clients. -/
def disconnect_all (clients : List client) : List client :=
  clients.map fun c => disconnect c dc.RST

/-- Embeds `handle_ec_success` (client.cc:445-449). -/
def handle_ec_success (c : client) : Except exception Bool × client :=
  (.ok true, c)

/-- Embeds `handle_ec_eof` (client.cc:451-457). -/
def handle_ec_eof (c : client) : Except exception Bool × client :=
  (.ok false, c.emit (.disconnect dc.FIN_RECV))

/-- Embeds `handle_ec_timeout` (client.cc:459-466): `sock.disconnect()`, which
takes the default mode of `socket::disconnect`. -/
def handle_ec_timeout (v : env) (c : client) : Except exception Bool × client :=
  (.ok false, c.emit (.disconnect v.dc_default))

/-- Embeds `handle_ec` (client.cc:429-443). -/
def handle_ec (v : env) (ec : Int) (c : client) : Except exception Bool × client :=
  if ec = errc.success then handle_ec_success c
  else if ec = eof then handle_ec_eof c
  else if ec = errc.operation_canceled then handle_ec_timeout v c
  else (.error (.system_error ec), c)

/-- Embeds `async_recv_next(std::shared_ptr<client>, const milliseconds &)`
(client.cc:409-427), run against the completions of a script. The completion
handler is `noexcept`: an exception out of `handle_ec` terminates the process. -/
def async_recv_next (v : env) (timeout : Int) : List cycle → client → status × client
  | [], c => (.awaiting, c.emit (.async_recv timeout))
  | x :: xs, c =>
    match handle_ec v x.ec ((c.emit (.async_recv timeout)).emit (.completion x.ec)) with
    | (.error _, c1) => (.terminated, c1)
    | (.ok false, c1) => (.closed, c1)
    | (.ok true, c1) =>
      match client.main v x.requests (c1.emit .submit) with
      | (.returned true, c2) => async_recv_next v timeout xs (c2.emit (.main_returned true))
      | (.returned false, c2) => (.closed, c2.emit (.main_returned false))
      | (.terminated, c2) => (.terminated, c2)

/-- A connection as `add_client` makes it: nothing armed, nothing logged. -/
def client.accepted : client :=
  { timer := none, log := [] }

/-- Embeds `add_client` (client.cc:363-373): make the client and schedule its first
read with `async_timeout`. -/
def add_client (v : env) (cycles : List cycle) : status × client :=
  async_recv_next v async_timeout cycles client.accepted

/-- An event logged by `handle_request` while one request is handled. -/
def event.of_request : event → Prop
  | .set_timeout _ => True
  | .parse => True
  | .timer_cancel => True
  | .resource _ _ => True
  | _ => False

/-- How two consecutive events of a log relate when scheduling is as the
lifecycle has it: a task is submitted exactly after a successful completion,
and a read is scheduled exactly after `client->main()` returned true. -/
def scheduled (a b : event) : Prop :=
  (a = .completion errc.success ↔ b = .submit) ∧
    (a = .main_returned true ↔ ∃ t, b = .async_recv t)

instance (e : event) : Decidable e.of_request :=
  match e with
  | .set_timeout _ => isTrue trivial
  | .parse => isTrue trivial
  | .timer_cancel => isTrue trivial
  | .resource _ _ => isTrue trivial
  | .disconnect _ => isFalse id
  | .async_recv _ => isFalse id
  | .completion _ => isFalse id
  | .submit => isFalse id
  | .main_returned _ => isFalse id

instance (b : event) : Decidable (∃ t, b = event.async_recv t) :=
  match b with
  | .async_recv t => isTrue ⟨t, rfl⟩
  | .set_timeout _ => isFalse (by rintro ⟨t, h⟩; cases h)
  | .parse => isFalse (by rintro ⟨t, h⟩; cases h)
  | .timer_cancel => isFalse (by rintro ⟨t, h⟩; cases h)
  | .resource _ _ => isFalse (by rintro ⟨t, h⟩; cases h)
  | .disconnect _ => isFalse (by rintro ⟨t, h⟩; cases h)
  | .completion _ => isFalse (by rintro ⟨t, h⟩; cases h)
  | .submit => isFalse (by rintro ⟨t, h⟩; cases h)
  | .main_returned _ => isFalse (by rintro ⟨t, h⟩; cases h)

instance (a b : event) : Decidable (scheduled a b) :=
  inferInstanceAs (Decidable
    ((a = .completion errc.success ↔ b = .submit) ∧
      (a = .main_returned true ↔ ∃ t, b = .async_recv t)))

/-! ## The read closure (client.cc:102-116, 172-203) -/

/-- Embeds `read` (client.cc:102-116): `sock.read_some` returns the number of
bytes it stored, by which `start` advances, or throws. The result is the new
`start`. -/
def read (start : Nat) (read_some : Except exception Nat) : Except exception Nat :=
  match read_some with
  | .ok n => .ok (start + n)
  | .error e => .error e

/-- Embeds the closure that `read_closure` returns (client.cc:188-202): a
`system_error` out of `read` goes through `handle_error`; any other exception
is not caught. -/
def read_closure (start : Nat) (read_some : Except exception Nat) : Except exception Nat :=
  match read start read_some with
  | .ok s => .ok s
  | .error (.system_error ec) => .error (read_closure.handle_error ec)
  | .error e => .error e

/-! ## Outbound requests (include/ircd/server/request.h) -/

/-- The part of `server::request` its destructor reads: the tag pointer. -/
structure server.request where
  tag : Option Nat
  deriving DecidableEq, Repr

/-- The calls the destructor of `server::request` makes, in order. -/
inductive server.call where
  | cancel
  | disassociate (tag : Nat)
  deriving DecidableEq, Repr

/-- Modelled from the spec: `disassociate(request &, tag &)` is defined in
ircd/server.cc, which is not under src/; it detaches the request from its tag. -/
def server.disassociate (r : server.request) : server.request :=
  { r with tag := none }

/-- Embeds `server::request::~request` (request.h:172-183). What
`cancel(request &)` does to the request is a parameter. The result is `none`
when the closing `assert(!tag)` fails. -/
def server.request.destructor (cancel : server.request → server.request)
    (r : server.request) : Option (server.request × List server.call) :=
  let s1 := if r.tag.isSome then (cancel r, [server.call.cancel]) else (r, [])
  let s2 :=
    match s1.1.tag with
    | some t => (server.disassociate s1.1, s1.2 ++ [server.call.disassociate t])
    | none => s1
  if s2.1.tag.isNone then some s2 else none

/-! ## Floating point exception names (ircd/fpe.cc) -/

/-- The values of the `<cfenv>` macros that `fpe::reflect` has cases for; they
come from the platform and are a parameter. -/
structure fpe.fenv where
  FE_INVALID : Nat
  FE_DIVBYZERO : Nat
  FE_UNDERFLOW : Nat
  FE_OVERFLOW : Nat
  FE_INEXACT : Nat
  deriving DecidableEq, Repr

/-- Embeds `fpe::reflect(const ushort &flag)` (fpe.cc:56-70): the switch, its
cases in source order. -/
def fpe.reflect_flag (fe : fpe.fenv) (flag : Nat) : List Char :=
  if flag = 0 then "".toList
  else if flag = fe.FE_INVALID then "INVALID".toList
  else if flag = fe.FE_DIVBYZERO then "DIVBYZERO".toList
  else if flag = fe.FE_UNDERFLOW then "UNDERFLOW".toList
  else if flag = fe.FE_OVERFLOW then "OVERFLOW".toList
  else if flag = fe.FE_INEXACT then "INEXACT".toList
  else "?????".toList

/-- Modelled from the spec: `strlcpy(const mutable_buffer &, const string_view &)`
is declared outside src/; as the C function of that name it copies what fits in
front of the terminating NUL, at most `room - 1` characters. -/
def strlcpy (room : Nat) (src : List Char) : List Char :=
  src.take (room - 1)

/-- Embeds `fpe::reflect(const mutable_buffer &buf, const ushort &flags)`
(fpe.cc:36-54) for a buffer of `size` bytes: for each of the 16 bits of
`flags`, lowest first, the name of a set bit is copied into what the window
buffer has left. -/
def fpe.reflect (fe : fpe.fenv) (size : Nat) (flags : Nat) : List Char :=
  (List.range 16).foldl
    (fun wb i =>
      if flags &&& (1 <<< i) ≠ 0 then
        wb ++ strlcpy (size - wb.length) (fpe.reflect_flag fe (1 <<< i))
      else wb)
    []

/-- Embeds `fpe::throw_errors` (fpe.cc:23-34): the message of the
`std::domain_error` thrown, if any; the buffer has 128 bytes. -/
def fpe.throw_errors (fe : fpe.fenv) (flags : Nat) : Except (List Char) Unit :=
  if flags = 0 then .ok () else .error (fpe.reflect fe 128 flags)

/-- The names of the set bits of `flags` among its 16 bits, lowest bit first,
one after the other. -/
def fpe.names (fe : fpe.fenv) (flags : Nat) : List Char :=
  (((List.range 16).filter fun i => flags.testBit i).map
    fun i => fpe.reflect_flag fe (2 ^ i)).flatten

/-! ## Text of a host and port (client.cc:468-476) -/

/-- The text `snprintf` formats for `"%s:%u"`: the host up to its first NUL,
as `c_str()` gives it to `%s`, a colon, and the port in decimal. -/
def string.text (pair : List Char × Nat) : List Char :=
  pair.1.takeWhile (fun ch => ch != '\x00') ++ ':' :: Nat.toDigits 10 pair.2

/-- The C function `snprintf` on a buffer `buf`: it stores as much of `text` as
fits in front of a terminating NUL and returns the length of the whole `text`,
stored or not. -/
def snprintf (buf : List Char) (text : List Char) : List Char × Nat :=
  if buf.length = 0 then (buf, text.length)
  else
    let stored := text.take (buf.length - 1) ++ ['\x00']
    (stored ++ buf.drop stored.length, text.length)

/-- The member `std::string::resize(n)`: cut to `n` characters, or filled up to
`n` with NUL characters. -/
def resize (s : List Char) (n : Nat) : List Char :=
  if n ≤ s.length then s.take n else s ++ List.replicate (n - s.length) '\x00'

/-- Embeds `string(const client::host_port &)` (client.cc:468-476). -/
def string (pair : List Char × Nat) : List Char :=
  let ret := List.replicate 64 '\x00'
  let r := snprintf ret (string.text pair)
  resize r.1 r.2

/-! ## Reading a line (client.cc:77-100) -/

/-- The value `std::string_view::npos`, the largest `size_t`. -/
def npos : Nat := 2 ^ 64 - 1

/-- The member `std::string_view::find`: the first position at which `pat`
occurs in `s`, or `npos`. -/
def find (s pat : List Char) : Nat :=
  match (List.range (s.length + 1)).find? (fun i => pat.isPrefixOf (s.drop i)) with
  | some i => i
  | none => npos

/-- How a call of `readline` ends. -/
inductive readline.result where
  /-- It returns the view of `len` characters from the original `start`; `view`
  is the part of the view that lies in what has been read. -/
  | returns (view : List Char) (len : Nat)
  /-- A read throws `e`. -/
  | throws (e : exception)
  /-- The socket delivers nothing more and the pending read never completes. -/
  | blocked
  deriving DecidableEq, Repr

/-- Embeds `readline` (client.cc:77-100). `ret` is what has been read since the
original `start`; each entry of the script is what one `sock.read_some`
delivers, or the exception it throws. The loop goes round while
`pos != npos`, and `pos + 2` is computed in `size_t`. -/
def readline (ret : List Char) : List (Except exception (List Char)) → readline.result
  | [] => .blocked
  | .error e :: _ => .throws e
  | .ok bytes :: rest =>
    let pos := find (ret ++ bytes) "\r\n".toList
    if pos ≠ npos then readline (ret ++ bytes) rest
    else .returns ((ret ++ bytes).take ((pos + 2) % 2 ^ 64)) ((pos + 2) % 2 ^ 64)

/-! ## Room state in sync (modules/client/sync/rooms/state.cc) -/

/-- The value an `int64_t` computation leaves when the exact result is `x`:
two's complement wrap-around. -/
def int64 (x : Int) : Int :=
  (x + 2 ^ 63) % 2 ^ 64 - 2 ^ 63

/-- What `room_state_linear_events` reads of `m::sync::data`: the event index,
the room id when there is a room, the membership, the `state_key` and the
`depth` of the event, and the depth of the room. A `string_view` tests false
when it is empty; an absent `state_key` reads as the empty view. -/
structure m.sync.data where
  event_idx : Nat
  room : Option String
  membership : String
  state_key : String
  depth : Int
  room_depth : Int
  deriving DecidableEq, Repr

/-- What is written to the JSON output stack `data.out`, in order. -/
inductive m.sync.out where
  /-- A `json::stack::object` member of that name is opened. -/
  | object (name : String)
  /-- A `json::stack::array` member of that name is opened. -/
  | array (name : String)
  /-- The call `room_state_append` for the event of that index. -/
  | append (event_idx : Nat)
  deriving DecidableEq, Repr

/-- Embeds `room_state_linear_events` (state.cc:105-165);
`state_exposure_depth` is the value of the configuration item. The result is
what is returned and what is written. -/
def m.sync.room_state_linear_events (state_exposure_depth : Int) (data : m.sync.data) :
    Bool × List m.sync.out :=
  if data.event_idx = 0 then (false, [])
  else
    match data.room with
    | none => (false, [])
    | some room_id =>
      if data.membership = "" then (false, [])
      else if data.state_key = "" then (false, [])
      else if state_exposure_depth > -1 ∧
          int64 (data.depth + state_exposure_depth) ≥ data.room_depth then (false, [])
      else
        (true,
          [.object "rooms", .object data.membership, .object room_id,
            .object (if data.membership = "invite" then "invite_state" else "state"),
            .array "events", .append data.event_idx])

/-- One room message as `room_state_phased_member_events` meets it: its event
index, the sender that `m::get(std::nothrow, event_idx, "sender", ...)` hands
to the closure (none when the closure is not called), and whether
`seek(event, event_idx, std::nothrow)` succeeds. -/
structure m.sync.message where
  event_idx : Nat
  sender : Option (List Char)
  seek : Bool
  deriving DecidableEq, Repr

/-- Modelled from the spec: `startswith(str, val)` is declared outside src/;
as its name says, whether `str` starts with `val`. -/
def startswith (str val : List Char) : Bool :=
  val.isPrefixOf str

/-- The loop of `room_state_phased_member_events` (state.cc:329-346) over the
messages newest first. `last` holds the senders recorded so far (`ret` is its
length) and `array` the event indexes appended so far. -/
def m.sync.room_state_phased_member_events.loop (count bufsz limit : Nat) :
    List m.sync.message → Nat → List (List Char) → List Nat → List (List Char) × List Nat
  | [], _, last, array => (last, array)
  | msg :: rest, i, last, array =>
    if last.length < count ∧ i < limit then
      match msg.sender with
      | none => loop count bufsz limit rest (i + 1) last array
      | some sender =>
        if last.any (fun l => startswith l sender) then
          loop count bufsz limit rest (i + 1) last array
        else if msg.seek then
          loop count bufsz limit rest (i + 1) (last ++ [strlcpy bufsz sender])
            (array ++ [msg.event_idx])
        else
          loop count bufsz limit rest (i + 1) (last ++ [strlcpy bufsz sender]) array
    else (last, array)

/-- Embeds `room_state_phased_member_events` (state.cc:305-349), with
`count = 10`, `bufsz = 48` and `limit = 10`: what it returns (`ret` read as a
`bool`) and the event indexes it appends to the array, in order. -/
def m.sync.room_state_phased_member_events (msgs : List m.sync.message) :
    Bool × List Nat :=
  let r := m.sync.room_state_phased_member_events.loop 10 48 10 msgs 0 [] []
  (r.1.length != 0, r.2)

/-! ## The registry of clients (client.cc:47-48, 219-229) -/

/-- Embeds the constructor `client::client(std::shared_ptr<socket>)`
(client.cc:219-224) on the registry `client::clients`, a list of the addresses
of the clients: `clients.emplace(end(clients), this)` puts `this` at the end. -/
def client.constructor (this : Nat) (clients : List Nat) : List Nat :=
  clients ++ [this]

/-- Modelled from the spec: the body of `client::~client` (client.cc:226-229)
is empty; what removes the entry is the destructor of the member `clit`, which
the constructor makes from the list and the position of the new entry
(client.cc:221) and whose type is declared in ircd/client.h, not under src/.
By the spec a closed connection is removed from the registry: the entry of
`this` is erased. -/
def client.destructor (this : Nat) (clients : List Nat) : List Nat :=
  clients.erase this

/-- Modelled from the spec: the life of the client that `add_client` makes, on
the registry. The client is made, which registers it, and the reads of the
script run; by the spec the client is destroyed when the last shared reference
to it is dropped, which for a closed connection is when the completion handler
or the task that closed it is done, since no read is pending any more. -/
def add_client.lifetime (v : env) (this : Nat) (cycles : List cycle)
    (clients : List Nat) : status × List Nat :=
  match (add_client v cycles).1 with
  | .closed => (.closed, client.destructor this (client.constructor this clients))
  | .awaiting => (.awaiting, client.constructor this clients)
  | .terminated => (.terminated, client.constructor this clients)

/-! ## Pipelining on an outbound connection (spec, section 4.4) -/

/-- Modelled from the spec: one pooled outbound connection, whose code
(ircd/server.cc) is not under src/: the queue of tags awaiting a response,
oldest first, and the requests whose futures have been resolved, in the order
of resolution. Requests are named by numbers. -/
structure server.link where
  queue : List Nat
  resolved : List Nat
  deriving DecidableEq, Repr

/-- What happens on a connection on which no request is canceled: a request is
submitted (`server::request::request`, request.h:125-136, calls `submit`), or
a whole response has been read from the socket. -/
inductive server.link.op where
  | submit (request : Nat)
  | response
  deriving DecidableEq, Repr

/-- Modelled from the spec: a submitted request is attached as the new tail of
the pipeline; a response is attributed to the oldest tag still awaiting one,
whose request is resolved and whose tag is retired. -/
def server.link.step (l : server.link) : server.link.op → server.link
  | .submit request => { l with queue := l.queue ++ [request] }
  | .response =>
    match l.queue with
    | [] => l
    | tag :: rest => { queue := rest, resolved := l.resolved ++ [tag] }

/-- A connection after a sequence of operations, from the idle connection. -/
def server.link.run (ops : List server.link.op) : server.link :=
  ops.foldl server.link.step ⟨[], []⟩

/-- The requests submitted by a sequence of operations, in order. -/
def server.link.submitted (ops : List server.link.op) : List Nat :=
  ops.filterMap fun
    | .submit request => some request
    | .response => none

/-! ## The fetch slots of `room_state_polylog_events` (state.cc:207-240) -/

/-- The buffer `md` has 64 entries (state.cc:208). -/
def m.sync.md_size : Nat := 64

/-- The fetch buffer `event` has `md.size() * 3` entries (state.cc:209). -/
def m.sync.event_size : Nat := m.sync.md_size * 3

/-- One callback of `each_idx` in flight: the number `k` of its invocation,
counting from 0, its event index, and the fetch slot `i` it computed. -/
structure m.sync.invocation where
  k : Nat
  event_idx : Nat
  i : Nat
  deriving DecidableEq, Repr

/-- The counter `_i` and the callbacks in flight, oldest first. A run makes one
invocation for each event of the room state, and these have distinct 64-bit
indexes, so the `size_t` counter does not wrap; it is a natural number here. -/
structure m.sync.fetches where
  _i : Nat
  flying : List m.sync.invocation
  deriving DecidableEq, Repr

/-- Embeds the first statement of the closure `each_idx` (state.cc:218),
`const size_t i{_i++ % event.size()}`, for a callback that is invoked and
stays in flight. -/
def m.sync.each_idx.enter (event_idx : Nat) (s : m.sync.fetches) : m.sync.fetches :=
  { _i := s._i + 1,
    flying := s.flying ++ [⟨s._i, event_idx, s._i % m.sync.event_size⟩] }

/-- What happens next in a schedule of the callbacks: a callback is invoked for
an event, or the callback of invocation `k` returns. -/
inductive m.sync.move where
  | enter (event_idx : Nat)
  | leave (k : Nat)
  deriving DecidableEq, Repr

/-- Whether a move is an invocation. -/
def m.sync.move.is_enter : m.sync.move → Bool
  | .enter _ => true
  | .leave _ => false

/-- One move of a schedule; `none` when the callback that is to return is not
in flight. -/
def m.sync.fetches.step (s : m.sync.fetches) : m.sync.move → Option m.sync.fetches
  | .enter event_idx => some (m.sync.each_idx.enter event_idx s)
  | .leave k =>
    if s.flying.any (fun c => c.k == k) then
      some { s with flying := s.flying.filter fun c => c.k != k }
    else none

/-- The states a schedule passes through, the first included; `none` when the
schedule has a callback return that is not in flight. -/
def m.sync.fetches.run : List m.sync.move → m.sync.fetches → Option (List m.sync.fetches)
  | [], s => some [s]
  | mv :: rest, s =>
    match s.step mv with
    | none => none
    | some s1 =>
      match m.sync.fetches.run rest s1 with
      | none => none
      | some states => some (s :: states)

/-- The schedule in which the callback of invocation 0 stays in flight while
the next `n` callbacks are invoked and return one after the other, and one
more callback is invoked then. The event of invocation `k` has index `k`. -/
def m.sync.lagging (n : Nat) : List m.sync.move :=
  .enter 0 :: ((List.range n).flatMap fun j => [.enter (j + 1), .leave (j + 1)])
    ++ [.enter (n + 1)]

/-- The callbacks in flight are numbered: each took the slot of its number
modulo the size of the fetch buffer, its number is below the counter, and no
two have the same number. -/
def m.sync.fetches.numbered (s : m.sync.fetches) : Prop :=
  (∀ c ∈ s.flying, c.i = c.k % m.sync.event_size ∧ c.k < s._i) ∧
    (s.flying.map fun c => c.k).Nodup

instance (s : m.sync.fetches) : Decidable s.numbered :=
  inferInstanceAs (Decidable
    ((∀ c ∈ s.flying, c.i = c.k % m.sync.event_size ∧ c.k < s._i) ∧
      (s.flying.map fun c : m.sync.invocation => c.k).Nodup))

/-! ## The fan-out of `room_state_polylog_events` (state.cc:194-253) -/

/-- The state of one run of the fan-out. `todo` holds the event indexes of the
room state that `state.for_each` has yet to visit; `_i` is the counter of the
closure `each_idx`; `event` tells, for each fetch slot, the event that the last
successful `seek` on it loaded; `seeking` holds the callbacks in flight whose
`seek` has not returned, `waiting` those that wait for the mutex, and `mutex`
the one that holds it; `array` holds, for each call of `room_state_append`,
the event read from the fetch slot at that moment, which is what is written to
the output array, and the event index passed; `ret` is the result; and `sent`
records the event indexes submitted to `concurrent`, in order. -/
structure m.sync.polylog where
  todo : List Nat
  _i : Nat
  event : Nat → Option Nat
  seeking : List m.sync.invocation
  waiting : List m.sync.invocation
  mutex : Option m.sync.invocation
  array : List (Option Nat × Nat)
  ret : Bool
  sent : List Nat

/-- The callbacks in flight. -/
def m.sync.polylog.flying (s : m.sync.polylog) : List m.sync.invocation :=
  s.seeking ++ s.waiting ++ s.mutex.toList

/-- The state in which `room_state_polylog_events` starts the loop over the
room state: every fetch default-constructed, the counter zero, `ret` false. -/
def m.sync.polylog.start (state : List Nat) : m.sync.polylog :=
  { todo := state, _i := 0, event := fun _ => none, seeking := [], waiting := [],
    mutex := none, array := [], ret := false, sent := [] }

/-- Modelled from the spec: `ctx::concurrent` (ircd/ctx/concurrent.h) is not
under src/. A submission takes one of the entries of the buffer `md` it was
given, of which there are 64, and starts the callback on it; while every entry
is taken the submitter waits: `none` here. The callback begins with the first
statement of `each_idx` (state.cc:218), which takes the fetch slot
`_i++ % event.size()`, and goes on to its `seek`. -/
def m.sync.concurrent (event_idx : Nat) (s : m.sync.polylog) : Option m.sync.polylog :=
  if s.flying.length < m.sync.md_size then
    some { s with
      _i := s._i + 1
      seeking := s.seeking ++ [⟨s._i, event_idx, s._i % m.sync.event_size⟩]
      sent := s.sent ++ [event_idx] }
  else none

/-- Embeds one call of the closure given to `state.for_each` (state.cc:242-249),
on the next event index of the room state: an index that does not pass
`apropos` is skipped, any other is submitted to `concurrent`. `none` when the
loop is over. -/
def m.sync.for_each (apropos : Nat → Bool) (s : m.sync.polylog) : Option m.sync.polylog :=
  match s.todo with
  | [] => none
  | event_idx :: rest =>
    if apropos event_idx then m.sync.concurrent event_idx { s with todo := rest }
    else some { s with todo := rest }

/-- Embeds `each_idx` at the return of `seek(event.at(i), event_idx, std::nothrow)`
(state.cc:219-231) in the callback of invocation `k`: on success the fetch slot
`i` holds the event of `event_idx` and the callback goes on to the mutex; on
failure the callback returns, and the slot is taken to be left as it was.
`none` when no such callback is in its `seek`. -/
def m.sync.each_idx.seek (seek : Nat → Bool) (k : Nat) (s : m.sync.polylog) :
    Option m.sync.polylog :=
  match s.seeking.find? fun c => c.k == k with
  | none => none
  | some c =>
    if seek c.event_idx then
      some { s with
        seeking := s.seeking.erase c
        waiting := s.waiting ++ [c]
        event := fun j => if j = c.i then some c.event_idx else s.event j }
    else some { s with seeking := s.seeking.erase c }

/-- Embeds `const std::lock_guard lock{mutex}` (state.cc:233) in the callback
of invocation `k`: it takes the mutex when no callback holds it. `none` when
one does, or when no such callback waits for the mutex. -/
def m.sync.each_idx.lock (k : Nat) (s : m.sync.polylog) : Option m.sync.polylog :=
  match s.mutex, s.waiting.find? fun c => c.k == k with
  | none, some c => some { s with waiting := s.waiting.erase c, mutex := some c }
  | _, _ => none

/-- Embeds the rest of `each_idx` (state.cc:234-235) in the callback of
invocation `k`, which holds the mutex: `room_state_append` is called with the
event that the fetch slot `event.at(i)` holds now and with `event_idx`, `ret`
is set, and the callback returns, releasing the mutex. `none` when that
callback does not hold the mutex. -/
def m.sync.each_idx.append (k : Nat) (s : m.sync.polylog) : Option m.sync.polylog :=
  match s.mutex with
  | some c =>
    if c.k = k then
      some { s with
        mutex := none
        array := s.array ++ [(s.event c.i, c.event_idx)]
        ret := true }
    else none
  | none => none

/-- What happens next in a run of the fan-out: `state.for_each` visits the next
event index, or the callback of invocation `k` gets one step further. -/
inductive m.sync.act where
  | visit
  | seek (k : Nat)
  | lock (k : Nat)
  | append (k : Nat)
  deriving DecidableEq, Repr

/-- One step of a run; `none` when the step cannot be made. -/
def m.sync.polylog.step (apropos seek : Nat → Bool) (s : m.sync.polylog) :
    m.sync.act → Option m.sync.polylog
  | .visit => m.sync.for_each apropos s
  | .seek k => m.sync.each_idx.seek seek k s
  | .lock k => m.sync.each_idx.lock k s
  | .append k => m.sync.each_idx.append k s

/-- The state a schedule leads to; `none` when one of its steps cannot be made. -/
def m.sync.polylog.run (apropos seek : Nat → Bool) :
    List m.sync.act → m.sync.polylog → Option m.sync.polylog
  | [], s => some s
  | a :: rest, s =>
    match s.step apropos seek a with
    | none => none
    | some s1 => m.sync.polylog.run apropos seek rest s1

/-- Whether every step of a schedule can be made and at no moment of the run
more than `most` callbacks are in flight. -/
def m.sync.polylog.within (apropos seek : Nat → Bool) (most : Nat) :
    List m.sync.act → m.sync.polylog → Bool
  | [], s => decide (s.flying.length ≤ most)
  | a :: rest, s =>
    decide (s.flying.length ≤ most) &&
      match s.step apropos seek a with
      | none => false
      | some s1 => m.sync.polylog.within apropos seek most rest s1

/-- Whether every step of a schedule can be made and at no moment of the run
two callbacks in flight have the same fetch slot. -/
def m.sync.polylog.apart (apropos seek : Nat → Bool) :
    List m.sync.act → m.sync.polylog → Bool
  | [], s => decide (s.flying.map fun c => c.i).Nodup
  | a :: rest, s =>
    decide (s.flying.map fun c => c.i).Nodup &&
      match s.step apropos seek a with
      | none => false
      | some s1 => m.sync.polylog.apart apropos seek rest s1

/-- Embeds `room_state_polylog_events` (state.cc:194-253) past the phased
case, under a schedule of the callbacks: the loop `state.for_each` visits every
event index of the room state, `concurrent.wait_done()` returns when no
callback is in flight, and `ret` is returned, which is read off the final
state. `none` when the schedule does not take the run to its end. -/
def m.sync.room_state_polylog_events (apropos seek : Nat → Bool) (state : List Nat)
    (schedule : List m.sync.act) : Option m.sync.polylog :=
  match m.sync.polylog.run apropos seek schedule (m.sync.polylog.start state) with
  | none => none
  | some s => if s.todo = [] ∧ s.flying = [] then some s else none

/-- The schedule in which every callback runs to its end before the next event
index is visited; `k` is the number of the next invocation. -/
def m.sync.one_by_one (apropos seek : Nat → Bool) : List Nat → Nat → List m.sync.act
  | [], _ => []
  | event_idx :: rest, k =>
    if apropos event_idx then
      (if seek event_idx then [.visit, .seek k, .lock k, .append k] else [.visit, .seek k])
        ++ m.sync.one_by_one apropos seek rest (k + 1)
    else .visit :: m.sync.one_by_one apropos seek rest k

/-- The schedule, on `n + 2` event indexes that all pass `apropos` and are all
fetched, in which the `seek` of the callback of invocation 0 has not returned
while the next `n` callbacks run to their ends one after the other; the `seek`
of the callback of invocation `n + 1` then returns, then that of invocation 0,
and the two append, the older first. -/
def m.sync.lagging_fan_out (n : Nat) : List m.sync.act :=
  [.visit]
    ++ ((List.range n).flatMap fun j =>
      [.visit, .seek (j + 1), .lock (j + 1), .append (j + 1)])
    ++ [.visit, .seek (n + 1), .seek 0, .lock 0, .append 0, .lock (n + 1), .append (n + 1)]

/-- The schedule, on the event indexes 0 to `n - 1` when all pass `apropos`,
with `n` at least 64, in which 64 callbacks are started before any runs to its
end, and then the oldest runs to its end and one more is started, until all
are done. -/
def m.sync.full_house (seek : Nat → Bool) (n : Nat) : List m.sync.act :=
  List.replicate 64 .visit
    ++ ((List.range (n - 64)).flatMap fun j =>
      if seek j then [.seek j, .lock j, .append j, .visit] else [.seek j, .visit])
    ++ ((List.range 64).flatMap fun j =>
      if seek (n - 64 + j) then
        [.seek (n - 64 + j), .lock (n - 64 + j), .append (n - 64 + j)]
      else [.seek (n - 64 + j)])

/-- What holds in every state of every run, whatever the schedule: the event
indexes submitted so far are those visited that pass `apropos`; the calls of
`room_state_append` made and still to be made are, up to order, for the event
indexes submitted whose fetch succeeds; every callback past its `seek` had it
succeed; `ret` tells whether a call has been made; and no more callbacks are
in flight than `md` has entries. -/
def m.sync.polylog.accounted (apropos seek : Nat → Bool) (state : List Nat)
    (s : m.sync.polylog) : Prop :=
  s.sent ++ s.todo.filter apropos = state.filter apropos ∧
    (s.array.map Prod.snd ++
        (((s.seeking.filter fun c => seek c.event_idx) ++ s.waiting ++ s.mutex.toList).map
          fun c => c.event_idx)).Perm (s.sent.filter seek) ∧
    (∀ c ∈ s.waiting ++ s.mutex.toList, seek c.event_idx = true) ∧
    (s.ret = true ↔ s.array ≠ []) ∧
    s.flying.length ≤ m.sync.md_size

instance (apropos seek : Nat → Bool) (state : List Nat) (s : m.sync.polylog) :
    Decidable (s.accounted apropos seek state) :=
  inferInstanceAs (Decidable
    (s.sent ++ s.todo.filter apropos = state.filter apropos ∧
      (s.array.map Prod.snd ++
          (((s.seeking.filter fun c => seek c.event_idx) ++ s.waiting ++ s.mutex.toList).map
            fun c => c.event_idx)).Perm (s.sent.filter seek) ∧
      (∀ c ∈ s.waiting ++ s.mutex.toList, seek c.event_idx = true) ∧
      (s.ret = true ↔ s.array ≠ []) ∧
      s.flying.length ≤ m.sync.md_size))

/-- What holds as long as no two callbacks in flight share a fetch slot: the
slot of a callback past its `seek` holds the event of that callback, and every
call of `room_state_append` was made with the event of the index passed. -/
def m.sync.polylog.unmixed (s : m.sync.polylog) : Prop :=
  (∀ c ∈ s.waiting ++ s.mutex.toList, s.event c.i = some c.event_idx) ∧
    ∀ p ∈ s.array, p.1 = some p.2

instance (s : m.sync.polylog) : Decidable s.unmixed :=
  inferInstanceAs (Decidable
    ((∀ c ∈ s.waiting ++ s.mutex.toList, s.event c.i = some c.event_idx) ∧
      ∀ p ∈ s.array, p.1 = some p.2))

/-! ## The schedule of reads read off a script -/

/-- The error code of a completion event, if the event is one. -/
def event.completion? : event → Option Int
  | .completion ec => some ec
  | _ => none

/-- Stated from the lifecycle: a completion re-arms the read when its code is
success and `client->main()` returns true for the requests of its task. What
`main` returns does not depend on the state of the connection
(`main_fst_indep`), so it is read at the state of a fresh connection. -/
def cycle.rearms (v : env) (x : cycle) : Bool :=
  decide (x.ec = errc.success) &&
    decide ((client.main v x.requests client.accepted).1 = .returned true)

/-- Stated from the lifecycle: the completions of a script that a connection
lives to see, which are those up to and including the first that does not
re-arm the read. -/
def cycle.reached (v : env) : List cycle → List cycle
  | [] => []
  | x :: xs => if cycle.rearms v x then x :: cycle.reached v xs else [x]

/-! ## Theorems -/

/-- What `handle_request` returns, read off the result of its try block. -/
theorem handle_request_fst (rq : http.request) (c : client) :
    (handle_request rq c).1 =
      match (handle_request.try_block rq c).1 with
      | .ok () => .ok true
      | .error (.http_error code) =>
        if code = http.BAD_REQUEST then .ok false
        else if code = http.INTERNAL_SERVER_ERROR then .ok false
        else if code = http.REQUEST_TIMEOUT then .ok false
        else .ok true
      | .error e => .error e := by
  unfold handle_request
  rcases h : handle_request.try_block rq c with ⟨r, c1⟩
  rcases r with e | u
  · cases e
    · simp only []
      repeat (first | rfl | split)
    · rfl
    · rfl
    · rfl
  · rfl

/-- `handle_request` leaves the connection in the state its try block left it in. -/
theorem handle_request_snd (rq : http.request) (c : client) :
    (handle_request rq c).2 = (handle_request.try_block rq c).2 := by
  unfold handle_request
  rcases h : handle_request.try_block rq c with ⟨r, c1⟩
  rcases r with e | u
  · cases e
    · simp only []
      repeat (first | rfl | split)
    · rfl
    · rfl
    · rfl
  · rfl

/-- C2: `handle_request` returns true when its try block raises no error, and
when it raises an `http::error` whose status is neither a client error, nor
the request timeout, nor a server error. -/
theorem handle_request_true (rq : http.request) (c : client)
    (h : (handle_request.try_block rq c).1 = .ok () ∨
      ∃ code, (handle_request.try_block rq c).1 = .error (.http_error code) ∧
        ¬ http.client_error code ∧ code ≠ http.REQUEST_TIMEOUT ∧
        ¬ http.server_error code) :
    (handle_request rq c).1 = .ok true := by
  rw [handle_request_fst]
  rcases h with h | ⟨code, h, hc, ht, hs⟩
  · rw [h]
  · rw [h]
    have h1 : code ≠ http.BAD_REQUEST := by
      intro e; exact hc (by rw [e]; exact ⟨by decide, by decide⟩)
    have h2 : code ≠ http.INTERNAL_SERVER_ERROR := by
      intro e; exact hs (by rw [e]; exact ⟨by decide, by decide⟩)
    simp [h1, h2, ht]

/-- Witness of C2: a handler that returns, and a handler that throws the
unrecognised status 799. -/
theorem handle_request_true_witness :
    (handle_request (.proffers ⟨"GET", "/", 0⟩ .returns) client.accepted).1 = .ok true ∧
      (handle_request (.proffers ⟨"GET", "/", 0⟩ (.throws (.http_error 799)))
        client.accepted).1 = .ok true :=
  ⟨handle_request_true _ _ (Or.inl rfl),
   handle_request_true _ _ (Or.inr ⟨799, rfl, by decide, by decide, by decide⟩)⟩

/-- For a completion code that `handle_ec` has no case for, it throws. -/
theorem handle_ec_default (v : env) (ec : Int) (c : client)
    (h0 : ec ≠ errc.success) (h1 : ec ≠ eof) (h2 : ec ≠ errc.operation_canceled) :
    handle_ec v ec c = (.error (.system_error ec), c) := by
  simp [handle_ec, h0, h1, h2]

/-- One completion with a code that `handle_ec` has no case for. -/
theorem async_recv_next_default (v : env) (timeout ec : Int) (p : pipeline)
    (xs : List cycle) (c : client)
    (h0 : ec ≠ errc.success) (h1 : ec ≠ eof) (h2 : ec ≠ errc.operation_canceled) :
    async_recv_next v timeout (⟨ec, p⟩ :: xs) c =
      (.terminated,
        { c with log := c.log ++ [.async_recv timeout, .completion ec] }) := by
  simp [async_recv_next, handle_ec_default v ec _ h0 h1 h2, client.emit]

/-- C3, as amended: for a completion code other than success, end-of-file and
operation-canceled, `handle_ec` throws a `system_error` carrying that code
without touching the connection, and the `noexcept` completion handler of
`async_recv_next` terminates the process: nothing is logged after the
completion, so the socket is not disconnected and no task is submitted. -/
theorem handle_ec_other_terminates (v : env) (timeout ec : Int) (p : pipeline)
    (xs : List cycle) (c : client)
    (h0 : ec ≠ errc.success) (h1 : ec ≠ eof) (h2 : ec ≠ errc.operation_canceled) :
    handle_ec v ec c = (.error (.system_error ec), c) ∧
      async_recv_next v timeout (⟨ec, p⟩ :: xs) c =
        (.terminated,
          { c with log := c.log ++ [.async_recv timeout, .completion ec] }) :=
  ⟨handle_ec_default v ec c h0 h1 h2, async_recv_next_default v timeout ec p xs c h0 h1 h2⟩

/-- Witness of C3 as amended: the read completes with connection-reset (104). -/
theorem handle_ec_other_terminates_witness :
    handle_ec ⟨false, true, .FIN⟩ 104 client.accepted
        = (.error (.system_error 104), client.accepted) ∧
      async_recv_next ⟨false, true, .FIN⟩ async_timeout
          [⟨104, .last (.proffers ⟨"GET", "/", 0⟩ .returns)⟩] client.accepted =
        (.terminated,
          { client.accepted with
            log := client.accepted.log ++ [.async_recv async_timeout, .completion 104] }) :=
  handle_ec_other_terminates ⟨false, true, .FIN⟩ async_timeout 104
    (.last (.proffers ⟨"GET", "/", 0⟩ .returns)) [] client.accepted
    (by decide) (by decide) (by decide)

/-- C3 fails as stated: when the read completes with connection-reset (104),
`handle_ec` throws, the connection does not end `closed` but with the process
terminated, and no disconnect is logged. -/
theorem handle_ec_connection_reset_throws :
    (104 : Int) ≠ errc.success ∧ (104 : Int) ≠ eof ∧
      (104 : Int) ≠ errc.operation_canceled ∧
      (handle_ec ⟨false, true, .FIN⟩ 104 client.accepted).1
        = .error (.system_error 104) ∧
      (add_client ⟨false, true, .FIN⟩
          [⟨104, .last (.proffers ⟨"GET", "/", 0⟩ .returns)⟩]).1 = .terminated ∧
      (add_client ⟨false, true, .FIN⟩
          [⟨104, .last (.proffers ⟨"GET", "/", 0⟩ .returns)⟩]).2.log
        = [.async_recv async_timeout, .completion 104] := by
  refine ⟨by decide, by decide, by decide, rfl, rfl, rfl⟩

/-- What `client::main` returns, read off the result of `client::serve`. -/
theorem main_fst (v : env) (p : pipeline) (c : client) :
    (client.main v p c).1 =
      match (client.serve v.debugmode p c).1 with
      | .ok b => .returned b
      | .error (.system_error ec) =>
        if ec = errc.success then (if v.NDEBUG then .returned true else .terminated)
        else if ec = errc.operation_canceled then .returned false
        else if ec = errc.not_connected then .returned false
        else (if v.debugmode then .terminated else .returned false)
      | .error .non_std => .terminated
      | .error _ => if v.debugmode then .terminated else .returned false := by
  unfold client.main
  rcases h : client.serve v.debugmode p c with ⟨r, c1⟩
  rcases r with e | b
  · cases e
    · rfl
    · simp only []
      repeat (first | rfl | split)
    · rfl
    · rfl
  · rfl

/-- C5, as amended: `client::main` lets no exception escape. It returns what
`serve` returns when `serve` returns. After an exception derived from
`std::exception` out of `serve`, other than a `system_error` with the success
code, it returns false, or terminates the process when `debugmode` is set and
the exception is not an operation-canceled or not-connected `system_error`.
After a thrown object of a type not derived from `std::exception` it terminates
the process whatever `debugmode` is. In none of these cases does it return true
after an exception. -/
theorem main_reduces_to_bool (v : env) (p : pipeline) (c : client) :
    (∀ b, (client.serve v.debugmode p c).1 = .ok b →
        (client.main v p c).1 = .returned b) ∧
      (∀ e, (client.serve v.debugmode p c).1 = .error e →
        e ≠ .system_error errc.success →
        (client.main v p c).1 =
          if e = .non_std ∨
              (v.debugmode = true ∧ e ≠ .system_error errc.operation_canceled ∧
                e ≠ .system_error errc.not_connected)
          then .terminated else .returned false) ∧
      (∀ e, (client.serve v.debugmode p c).1 = .error e →
        e ≠ .system_error errc.success →
        (client.main v p c).1 ≠ .returned true) := by
  have key : ∀ e, (client.serve v.debugmode p c).1 = .error e →
      e ≠ .system_error errc.success →
      (client.main v p c).1 =
        if e = .non_std ∨
            (v.debugmode = true ∧ e ≠ .system_error errc.operation_canceled ∧
              e ≠ .system_error errc.not_connected)
        then .terminated else .returned false := by
    intro e h hne
    rw [main_fst, h]
    cases e with
    | http_error code => cases hd : v.debugmode <;> simp
    | std_exception w => cases hd : v.debugmode <;> simp
    | non_std => simp
    | system_error ec =>
      have h0 : ec ≠ errc.success := fun x => hne (by rw [x])
      simp only [h0, if_false]
      by_cases h1 : ec = errc.operation_canceled
      · simp [h1]
      · by_cases h2 : ec = errc.not_connected
        · subst h2
          simp [h1]
        · cases hd : v.debugmode <;> simp [h1, h2]
  refine ⟨?_, key, ?_⟩
  · intro b h
    rw [main_fst, h]
  · intro e h hne
    rw [key e h hne]
    split <;> simp

/-- Witness of C5 as amended, with `debugmode` set: a request served, a
connection-reset and a not-connected error rethrown by `serve`, and a thrown
object that is not a `std::exception`. -/
theorem main_reduces_to_bool_witness :
    (client.main ⟨true, true, .FIN⟩ (.last (.proffers ⟨"GET", "/", 0⟩ .returns))
        client.accepted).1 = .returned true ∧
      (client.main ⟨true, true, .FIN⟩ (.last (.read_error 104)) client.accepted).1
        = .terminated ∧
      (client.main ⟨true, true, .FIN⟩ (.last (.read_error 107)) client.accepted).1
        = .returned false ∧
      (client.main ⟨true, true, .FIN⟩
          (.last (.proffers ⟨"GET", "/", 0⟩ (.throws .non_std)))
        client.accepted).1 ≠ .returned true :=
  ⟨(main_reduces_to_bool ⟨true, true, .FIN⟩ (.last (.proffers ⟨"GET", "/", 0⟩ .returns))
      client.accepted).1 true rfl,
   (main_reduces_to_bool ⟨true, true, .FIN⟩ (.last (.read_error 104))
      client.accepted).2.1 (.system_error 104) rfl (by decide),
   (main_reduces_to_bool ⟨true, true, .FIN⟩ (.last (.read_error 107))
      client.accepted).2.1 (.system_error 107) rfl (by decide),
   (main_reduces_to_bool ⟨true, true, .FIN⟩
      (.last (.proffers ⟨"GET", "/", 0⟩ (.throws .non_std)))
      client.accepted).2.2 .non_std rfl (by decide)⟩

/-- C5 fails as stated: with `debugmode` off, a handler that throws an object
of a type not derived from `std::exception` is caught neither by `serve` nor by
`main`, and the `noexcept` `client::main` terminates the process instead of
returning false. -/
theorem main_terminates_without_debugmode :
    (client.serve false (.last (.proffers ⟨"GET", "/", 0⟩ (.throws .non_std)))
        client.accepted).1 = .error .non_std ∧
      (client.main ⟨false, true, .FIN⟩
          (.last (.proffers ⟨"GET", "/", 0⟩ (.throws .non_std)))
        client.accepted).1 = .terminated ∧
      (client.main ⟨false, true, .FIN⟩
          (.last (.proffers ⟨"GET", "/", 0⟩ (.throws .non_std)))
        client.accepted).1 ≠ .returned false := by
  exact ⟨rfl, rfl, by decide⟩


/-- What `handle_request` returns depends on the request only, not on the state of the connection. -/
theorem handle_request_fst_indep (rq : http.request) (c d : client) :
    (handle_request rq c).1 = (handle_request rq d).1 := by
  rcases rq with ec | e | ⟨h, r⟩
  · simp only [handle_request_fst, handle_request.try_block, http.request.construct]
  · simp only [handle_request_fst, handle_request.try_block, http.request.construct]
  · cases r <;>
      simp only [handle_request_fst, handle_request.try_block, http.request.construct,
        handle_request.proffer, handle_request_head]

/-- The events `handle_request` appends to the log, by request. -/
theorem handle_request_log (rq : http.request) (c : client) :
    (handle_request rq c).2.log =
      c.log ++ [.set_timeout request_timeout, .parse] ++
        match rq with
        | .proffers _ (.unfound _) => [.timer_cancel]
        | .proffers h _ => [.timer_cancel, .resource h.path none]
        | _ => [] := by
  rw [handle_request_snd]
  rcases rq with ec | e | ⟨h, r⟩
  · simp [handle_request.try_block, http.request.construct, client.emit]
  · simp [handle_request.try_block, http.request.construct, client.emit]
  · cases r <;>
      simp [handle_request.try_block, http.request.construct,
        handle_request.proffer, handle_request_head, client.emit]


/-- Each call of `handle_request` enters the parser exactly once. -/
theorem handle_request_parse_count (rq : http.request) (c : client) :
    (handle_request rq c).2.log.count .parse = c.log.count .parse + 1 := by
  rw [handle_request_log]
  rcases rq with ec | e | ⟨h, r⟩
  · simp [List.count_cons]
  · simp [List.count_cons]
  · cases r <;> simp [List.count_cons]

/-- What `client::serve` returns, read off the result of its try block. -/
theorem serve_fst (debugmode : Bool) (p : pipeline) (c : client) :
    (client.serve debugmode p c).1 =
      match (client.serve.try_block p c).1 with
      | .ok b => .ok b
      | .error .non_std => .error .non_std
      | .error e => if debugmode then .error e else .ok false := by
  unfold client.serve
  rcases h : client.serve.try_block p c with ⟨r, c1⟩
  rcases r with e | b
  · cases e <;> cases debugmode <;> rfl
  · rfl

/-- The catch clause of `client::serve` leaves the connection as the loop left it. -/
theorem serve_snd (debugmode : Bool) (p : pipeline) (c : client) :
    (client.serve debugmode p c).2 = (client.serve.try_block p c).2 := by
  unfold client.serve
  rcases h : client.serve.try_block p c with ⟨r, c1⟩
  rcases r with e | b
  · cases e <;> cases debugmode <;> rfl
  · rfl

/-- The loop of `client::serve` goes on after a request handled with result true. -/
theorem try_block_more_true (rq : http.request) (rest : pipeline) (c : client)
    (h : (handle_request rq c).1 = .ok true) :
    client.serve.try_block (.more rq rest) c
      = client.serve.try_block rest (handle_request rq c).2 := by
  rw [client.serve.try_block]
  rcases k : handle_request rq c with ⟨r, c1⟩
  rw [k] at h
  simp only at h
  subst h
  rfl

/-- The loop of `client::serve` ends at a request not handled with result true. -/
theorem try_block_more_stop (rq : http.request) (rest : pipeline) (c : client)
    (h : (handle_request rq c).1 ≠ .ok true) :
    client.serve.try_block (.more rq rest) c = handle_request rq c := by
  rw [client.serve.try_block]
  rcases k : handle_request rq c with ⟨r, c1⟩
  rw [k] at h
  rcases r with e | b
  · rfl
  · cases b
    · rfl
    · exact absurd rfl h

/-- The loop of `client::serve` yields true exactly when every request does. -/
theorem try_block_true_iff (p : pipeline) (c : client) :
    (client.serve.try_block p c).1 = .ok true ↔
      ∀ rq ∈ p.toList, (handle_request rq c).1 = .ok true := by
  induction p generalizing c with
  | last rq => simp [client.serve.try_block, pipeline.toList]
  | more rq rest ih =>
    by_cases h : (handle_request rq c).1 = .ok true
    · rw [try_block_more_true rq rest c h]
      simp only [h, pipeline.toList, List.mem_cons, forall_eq_or_imp, true_and]
      rw [ih]
      constructor
      · intro k x hx
        rw [handle_request_fst_indep x c (handle_request rq c).2]
        exact k x hx
      · intro k x hx
        rw [← handle_request_fst_indep x c (handle_request rq c).2]
        exact k x hx
    · rw [try_block_more_stop rq rest c h]
      simp [h, pipeline.toList]

/-- A loop that yields true has called `handle_request` once per request. -/
theorem try_block_true_count (p : pipeline) (c : client)
    (h : (client.serve.try_block p c).1 = .ok true) :
    (client.serve.try_block p c).2.log.count .parse
      = c.log.count .parse + p.toList.length := by
  induction p generalizing c with
  | last rq => simp [client.serve.try_block, pipeline.toList, handle_request_parse_count]
  | more rq rest ih =>
    by_cases k : (handle_request rq c).1 = .ok true
    · rw [try_block_more_true rq rest c k] at h ⊢
      rw [ih _ h, handle_request_parse_count]
      simp only [pipeline.toList, List.length_cons]
      omega
    · rw [try_block_more_stop rq rest c k] at h
      exact absurd h k

/-- The loop yields the result of the first request not handled with result true, and calls `handle_request` no further. -/
theorem try_block_stops (p : pipeline) (c : client) (pre post : List http.request)
    (rq : http.request) (hp : p.toList = pre ++ rq :: post)
    (hpre : ∀ x ∈ pre, (handle_request x c).1 = .ok true)
    (hrq : (handle_request rq c).1 ≠ .ok true) :
    (client.serve.try_block p c).1 = (handle_request rq c).1 ∧
      (client.serve.try_block p c).2.log.count .parse
        = c.log.count .parse + pre.length + 1 := by
  induction p generalizing c pre with
  | last x =>
    cases pre with
    | nil =>
      simp only [pipeline.toList, List.nil_append, List.cons.injEq] at hp
      obtain ⟨rfl, -⟩ := hp
      simp [client.serve.try_block, handle_request_parse_count]
    | cons y ys =>
      simp [pipeline.toList] at hp
  | more x rest ih =>
    cases pre with
    | nil =>
      simp only [pipeline.toList, List.nil_append, List.cons.injEq] at hp
      obtain ⟨rfl, -⟩ := hp
      rw [try_block_more_stop x rest c hrq]
      simp [handle_request_parse_count]
    | cons y ys =>
      simp only [pipeline.toList, List.cons_append, List.cons.injEq] at hp
      obtain ⟨rfl, hp⟩ := hp
      have hx : (handle_request x c).1 = .ok true := hpre x (List.mem_cons_self _ _)
      rw [try_block_more_true x rest c hx]
      have h1 := ih (handle_request x c).2 ys hp
        (fun z hz => by
          rw [← handle_request_fst_indep z c]
          exact hpre z (List.mem_cons_of_mem _ hz))
        (by rw [← handle_request_fst_indep rq c]; exact hrq)
      rw [← handle_request_fst_indep rq c] at h1
      refine ⟨h1.1, ?_⟩
      rw [h1.2, handle_request_parse_count]
      simp only [List.length_cons]
      omega


/-- One call of `handle_request` appends request events only, and at least one. -/
theorem handle_request_log_of_request (rq : http.request) (c : client) :
    ∃ s, (handle_request rq c).2.log = c.log ++ s ∧ s ≠ [] ∧ ∀ e ∈ s, e.of_request := by
  refine ⟨_, by rw [handle_request_log, List.append_assoc], by simp, ?_⟩
  rcases rq with ec | e | ⟨h, r⟩
  · simp [event.of_request]
  · simp [event.of_request]
  · cases r <;> simp [event.of_request]

/-- The loop of `client::serve` appends request events only, and at least one. -/
theorem try_block_log (p : pipeline) (c : client) :
    ∃ s, (client.serve.try_block p c).2.log = c.log ++ s ∧ s ≠ [] ∧
      ∀ e ∈ s, e.of_request := by
  induction p generalizing c with
  | last rq => exact handle_request_log_of_request rq c
  | more rq rest ih =>
    by_cases h : (handle_request rq c).1 = .ok true
    · rw [try_block_more_true rq rest c h]
      obtain ⟨s0, h0, n0, r0⟩ := handle_request_log_of_request rq c
      obtain ⟨s1, h1, -, r1⟩ := ih (handle_request rq c).2
      refine ⟨s0 ++ s1, by rw [h1, h0, List.append_assoc], by simp [n0], ?_⟩
      intro e he
      rcases List.mem_append.mp he with k | k
      · exact r0 e k
      · exact r1 e k
    · rw [try_block_more_stop rq rest c h]
      exact handle_request_log_of_request rq c

/-- The catch clauses of `client::main` leave the connection as the loop left it. -/
theorem main_snd (v : env) (p : pipeline) (c : client) :
    (client.main v p c).2 = (client.serve.try_block p c).2 := by
  rw [← serve_snd v.debugmode]
  unfold client.main
  rcases h : client.serve v.debugmode p c with ⟨r, c1⟩
  rcases r with e | b
  · cases e
    · rfl
    · simp only []
      repeat (first | rfl | split)
    · rfl
    · rfl
  · rfl

/-- One call of `client::main` appends request events only, and at least one. -/
theorem main_log (v : env) (p : pipeline) (c : client) :
    ∃ s, (client.main v p c).2.log = c.log ++ s ∧ s ≠ [] ∧ ∀ e ∈ s, e.of_request := by
  rw [main_snd]
  exact try_block_log p c


/-- A request event may be followed by a request event or by the return of `main`. -/
theorem scheduled_of_request_left (a b : event) (ha : a.of_request)
    (hb : b.of_request ∨ ∃ r, b = .main_returned r) : scheduled a b := by
  rcases hb with hb | ⟨r, rfl⟩
  · cases a <;> cases b <;> simp_all [scheduled, event.of_request]
  · cases a <;> simp_all [scheduled, event.of_request]

/-- A submission may be followed by a request event. -/
theorem scheduled_submit (b : event) (hb : b.of_request) : scheduled .submit b := by
  cases b <;> simp_all [scheduled, event.of_request]

/-- Consecutive request events are scheduled. -/
theorem chain_of_request (s : List event) (h : ∀ e ∈ s, e.of_request) :
    List.Chain' scheduled s :=
  List.Pairwise.chain' (List.pairwise_of_forall_mem_list
    (fun a ha b hb => scheduled_of_request_left a b (h a ha) (Or.inl (h b hb))))

/-- The events of one served cycle are scheduled. -/
theorem chain_cycle (timeout : Int) (sm tail : List event) (hne : sm ≠ [])
    (hreq : ∀ e ∈ sm, e.of_request) (ht : List.Chain' scheduled tail)
    (hh : ∀ y ∈ tail.head?, ∃ r, y = .main_returned r) :
    List.Chain' scheduled
      (.async_recv timeout :: .completion errc.success :: .submit :: (sm ++ tail)) := by
  rw [List.chain'_cons, List.chain'_cons]
  refine ⟨by simp [scheduled], by simp [scheduled], ?_⟩
  rw [← List.cons_append]
  refine List.Chain'.append ?_ ht ?_
  · cases sm with
    | nil => exact absurd rfl hne
    | cons e sm1 =>
      rw [List.chain'_cons]
      exact ⟨scheduled_submit e (hreq e (List.mem_cons_self _ _)), chain_of_request _ hreq⟩
  · intro x hx y hy
    have hx1 : x ∈ sm := by
      cases sm with
      | nil => exact absurd rfl hne
      | cons e sm1 =>
        rw [List.getLast?_cons_cons] at hx
        exact List.mem_of_mem_getLast? hx
    exact scheduled_of_request_left x y (hreq x hx1) (Or.inr (hh y hy))


/-- A log that ends with request events ends on a request event. -/
theorem last_of_request (x : event) (sm : List event) (hne : sm ≠ [])
    (hreq : ∀ e ∈ sm, e.of_request) (pre : List event) (hx : (pre ++ sm).getLast? = some x) :
    x.of_request := by
  rw [List.getLast?_append] at hx
  cases h : sm.getLast? with
  | none => exact absurd (List.getLast?_eq_none_iff.mp h) hne
  | some y =>
    rw [h] at hx
    simp only [Option.or_some, Option.some.injEq] at hx
    subst hx
    exact hreq y (List.mem_of_mem_getLast? h)

/-- The last event of a log is the last event of any non-empty tail of it. -/
theorem getLast_append_cons (pre l : List event) (b : event) :
    (pre ++ b :: l).getLast? = (b :: l).getLast? := by
  rw [List.getLast?_append]
  cases h : (b :: l).getLast? with
  | none => simp at h
  | some y => rfl

/-- The last event of a served cycle followed by a non-empty tail. -/
theorem last_cycle (timeout : Int) (sm tail : List event) (b : event) :
    (event.async_recv timeout :: .completion errc.success :: .submit ::
        (sm ++ b :: tail)).getLast? = (b :: tail).getLast? :=
  getLast_append_cons
    (event.async_recv timeout :: .completion errc.success :: .submit :: sm) tail b

/-- One completion with the end-of-file code. -/
theorem async_recv_next_eof (v : env) (timeout : Int) (p : pipeline) (xs : List cycle)
    (c : client) :
    async_recv_next v timeout (⟨eof, p⟩ :: xs) c =
      (.closed, { c with log := c.log ++
        [.async_recv timeout, .completion eof, .disconnect .FIN_RECV] }) := by
  have h0 : eof ≠ errc.success := by decide
  simp [async_recv_next, handle_ec, h0, handle_ec_eof, client.emit]

/-- One completion with the operation-canceled code. -/
theorem async_recv_next_timeout (v : env) (timeout : Int) (p : pipeline) (xs : List cycle)
    (c : client) :
    async_recv_next v timeout (⟨errc.operation_canceled, p⟩ :: xs) c =
      (.closed, { c with log := c.log ++
        [.async_recv timeout, .completion errc.operation_canceled,
          .disconnect v.dc_default] }) := by
  have h0 : errc.operation_canceled ≠ errc.success := by decide
  have h1 : errc.operation_canceled ≠ eof := by decide
  simp [async_recv_next, handle_ec, h0, h1, handle_ec_timeout, client.emit]

/-- One completion with the success code. -/
theorem async_recv_next_success (v : env) (timeout : Int) (p : pipeline) (xs : List cycle)
    (c : client) :
    async_recv_next v timeout (⟨errc.success, p⟩ :: xs) c =
      match client.main v p { c with log := c.log ++
          [.async_recv timeout, .completion errc.success, .submit] } with
      | (.returned true, c2) =>
        async_recv_next v timeout xs { c2 with log := c2.log ++ [.main_returned true] }
      | (.returned false, c2) =>
        (.closed, { c2 with log := c2.log ++ [.main_returned false] })
      | (.terminated, c2) => (.terminated, c2) := by
  simp [async_recv_next, handle_ec, handle_ec_success, client.emit]

/-- The log of `async_recv_next`: it begins with the read it schedules and every two consecutive events are scheduled. -/
theorem async_recv_next_log (v : env) (timeout : Int) (xs : List cycle) (c : client) :
    ∃ s, (async_recv_next v timeout xs c).2.log = c.log ++ .async_recv timeout :: s ∧
      List.Chain' scheduled (.async_recv timeout :: s) ∧
      (∀ t, event.async_recv t ∈ s → t = timeout) ∧
      (event.async_recv timeout :: s).getLast? ≠ some (.main_returned true) ∧
      (event.async_recv timeout :: s).getLast? ≠ some (.completion errc.success) := by
  induction xs generalizing c with
  | nil =>
    refine ⟨[], by simp [async_recv_next, client.emit], List.chain'_singleton _, by simp,
      by simp, by simp⟩
  | cons x xs ih =>
    obtain ⟨ec, p⟩ := x
    by_cases h0 : ec = errc.success
    · subst h0
      rw [async_recv_next_success]
      obtain ⟨sm, hsm, hne, hreq⟩ := main_log v p
        { c with log := c.log ++ [.async_recv timeout, .completion errc.success, .submit] }
      have hnr : ∀ t, event.async_recv t ∉ sm := fun t ht =>
        absurd (hreq _ ht) (by simp [event.of_request])
      rcases hm : client.main v p
        { c with log := c.log ++ [.async_recv timeout, .completion errc.success, .submit] }
        with ⟨o, c2⟩
      rw [hm] at hsm
      simp only [List.append_assoc, List.cons_append, List.nil_append] at hsm
      rcases o with b | _
      · cases b
        · refine ⟨.completion errc.success :: .submit :: (sm ++ [.main_returned false]),
            by simp [hsm], ?_, ?_, ?_, ?_⟩
          · exact chain_cycle timeout sm _ hne hreq (List.chain'_singleton _) (by simp)
          · intro t ht
            simp only [List.mem_cons, List.mem_append, List.mem_singleton, reduceCtorEq,
              false_or, or_false, List.not_mem_nil] at ht
            exact absurd ht (hnr t)
          · rw [last_cycle]
            simp
          · rw [last_cycle]
            simp
        · obtain ⟨s1, hs1, ch1, at1, l1, l2⟩ :=
            ih { c2 with log := c2.log ++ [.main_returned true] }
          refine ⟨.completion errc.success :: .submit ::
              (sm ++ .main_returned true :: .async_recv timeout :: s1),
            by rw [hs1]; simp [hsm], ?_, ?_, ?_, ?_⟩
          · refine chain_cycle timeout sm _ hne hreq ?_ (by simp)
            rw [List.chain'_cons]
            exact ⟨by simp [scheduled], ch1⟩
          · intro t ht
            simp only [List.mem_cons, List.mem_append, reduceCtorEq, false_or,
              event.async_recv.injEq] at ht
            rcases ht with ht | ht | ht
            · exact absurd ht (hnr t)
            · exact ht
            · exact at1 t ht
          · rw [last_cycle, List.getLast?_cons_cons]
            exact l1
          · rw [last_cycle, List.getLast?_cons_cons]
            exact l2
      · refine ⟨.completion errc.success :: .submit :: sm, by simp [hsm], ?_, ?_, ?_, ?_⟩
        · have := chain_cycle timeout sm [] hne hreq List.chain'_nil (by simp)
          simpa using this
        · intro t ht
          simp only [List.mem_cons, reduceCtorEq, false_or] at ht
          exact absurd ht (hnr t)
        · intro k
          have := last_of_request _ sm hne hreq
            [.async_recv timeout, .completion errc.success, .submit] k
          simp [event.of_request] at this
        · intro k
          have := last_of_request _ sm hne hreq
            [.async_recv timeout, .completion errc.success, .submit] k
          simp [event.of_request] at this
    · by_cases h1 : ec = eof
      · subst h1
        rw [async_recv_next_eof]
        refine ⟨[.completion eof, .disconnect .FIN_RECV], by simp, ?_, by simp, by simp,
          by simp⟩
        simp [List.chain'_cons, scheduled, h0]
      · by_cases h2 : ec = errc.operation_canceled
        · subst h2
          rw [async_recv_next_timeout]
          refine ⟨[.completion errc.operation_canceled, .disconnect v.dc_default],
            by simp, ?_, by simp, by simp, by simp⟩
          simp [List.chain'_cons, scheduled, h0]
        · rw [async_recv_next_default v timeout ec p xs c h0 h1 h2]
          refine ⟨[.completion ec], by simp, ?_, by simp, by simp, by simp [h0]⟩
          simp [List.chain'_cons, scheduled, h0]

/-- C7: `handle_request` arms the request timer with `request_timeout`
(300 s) before parsing begins and never re-arms it; the timer is cancelled
first thing once a head is parsed, and only then; a resource handler is
invoked only right after that cancel, with the timer disarmed. -/
theorem handle_request_timer_order (rq : http.request) (c : client) :
    request_timeout = 300 * 1000 ∧
      ∃ tail, (handle_request rq c).2.log
          = c.log ++ [.set_timeout request_timeout, .parse] ++ tail ∧
        (∀ d, event.set_timeout d ∉ tail) ∧
        ((∃ h r, rq = .proffers h r) ↔ tail.head? = some .timer_cancel) ∧
        (∀ path t, event.resource path t ∈ tail →
          t = none ∧ tail = [.timer_cancel, .resource path none]) := by
  refine ⟨rfl, _, handle_request_log rq c, ?_, ?_, ?_⟩
  · rcases rq with ec | e | ⟨h, r⟩
    · simp
    · simp
    · cases r <;> simp
  · rcases rq with ec | e | ⟨h, r⟩
    · simp
    · simp
    · cases r <;> simp
  · rcases rq with ec | e | ⟨h, r⟩
    · simp
    · simp
    · cases r <;> simp

/-- C8, as amended: `client::serve` returns true exactly when `handle_request`
returns true for every request of the pipeline, and then it has made one call
per request; at the first request for which `handle_request` does not return
true the loop stops with no further call, and `serve` returns false if that
call returned false; on an exception derived from `std::exception` it returns
false unless `debugmode` is set, in which case it rethrows; a thrown object of
any other type leaves `serve` in either mode. What `handle_request` returns for
a request does not depend on the state of the connection
(`handle_request_fst_indep`), so the results are read at the state `serve`
starts from; calls are counted by the `parse` events in the log, one per call. -/
theorem serve_loop (debugmode : Bool) (p : pipeline) (c : client) :
    ((client.serve debugmode p c).1 = .ok true ↔
        ∀ rq ∈ p.toList, (handle_request rq c).1 = .ok true) ∧
      ((client.serve debugmode p c).1 = .ok true →
        (client.serve debugmode p c).2.log.count .parse
          = c.log.count .parse + p.toList.length) ∧
      (∀ pre rq post, p.toList = pre ++ rq :: post →
        (∀ x ∈ pre, (handle_request x c).1 = .ok true) →
        (handle_request rq c).1 ≠ .ok true →
        (client.serve debugmode p c).2.log.count .parse
            = c.log.count .parse + pre.length + 1 ∧
          ((handle_request rq c).1 = .ok false →
            (client.serve debugmode p c).1 = .ok false) ∧
          (∀ e, (handle_request rq c).1 = .error e →
            (client.serve debugmode p c).1
              = if e = .non_std ∨ debugmode = true then .error e else .ok false)) := by
  have key : (client.serve debugmode p c).1 = .ok true ↔
      (client.serve.try_block p c).1 = .ok true := by
    rw [serve_fst]
    rcases h : (client.serve.try_block p c).1 with e | b
    · cases e <;> cases debugmode <;> simp
    · simp
  refine ⟨key.trans (try_block_true_iff p c), ?_, ?_⟩
  · intro h
    rw [serve_snd]
    exact try_block_true_count p c (key.mp h)
  · intro pre rq post hp hpre hrq
    obtain ⟨h1, h2⟩ := try_block_stops p c pre post rq hp hpre hrq
    refine ⟨by rw [serve_snd]; exact h2, ?_, ?_⟩
    · intro hf
      rw [serve_fst, h1, hf]
    · intro e he
      rw [serve_fst, h1, he]
      cases e <;> cases debugmode <;> simp

/-- Witness of C8 as amended: three pipelined requests of which the second is
malformed (status 400); `serve` returns false after two calls of
`handle_request`. -/
theorem serve_loop_witness :
    (client.serve false
        (.more (.proffers ⟨"GET", "/", 0⟩ .returns)
          (.more (.throws (.http_error 400)) (.last (.proffers ⟨"GET", "/", 0⟩ .returns))))
        client.accepted).2.log.count .parse = client.accepted.log.count .parse + 1 + 1 ∧
      (client.serve false
        (.more (.proffers ⟨"GET", "/", 0⟩ .returns)
          (.more (.throws (.http_error 400)) (.last (.proffers ⟨"GET", "/", 0⟩ .returns))))
        client.accepted).1 = .ok false :=
  have h := (serve_loop false
    (.more (.proffers ⟨"GET", "/", 0⟩ .returns)
      (.more (.throws (.http_error 400)) (.last (.proffers ⟨"GET", "/", 0⟩ .returns))))
    client.accepted).2.2 [.proffers ⟨"GET", "/", 0⟩ .returns] (.throws (.http_error 400))
    [.proffers ⟨"GET", "/", 0⟩ .returns] rfl
    (by
      intro x hx
      rw [List.mem_singleton.mp hx]
      rfl)
    (by
      show (Except.ok false : Except exception Bool) ≠ Except.ok true
      simp)
  ⟨h.1, h.2.1 rfl⟩

/-- C8 fails as stated: with `debugmode` off, a handler that throws an object
of a type not derived from `std::exception` is not caught by the
`catch(const std::exception &)` of `client::serve`, which does not return false
but lets the object through. -/
theorem serve_non_std_propagates :
    (handle_request (.proffers ⟨"GET", "/", 0⟩ (.throws .non_std)) client.accepted).1
        = .error .non_std ∧
      (client.serve false (.last (.proffers ⟨"GET", "/", 0⟩ (.throws .non_std)))
        client.accepted).1 = .error .non_std ∧
      (client.serve false (.last (.proffers ⟨"GET", "/", 0⟩ (.throws .non_std)))
        client.accepted).1 ≠ .ok false := by
  refine ⟨rfl, rfl, ?_⟩
  show (Except.error exception.non_std : Except exception Bool) ≠ Except.ok false
  simp

/-- What the loop of `client::serve` yields depends on the requests only. -/
theorem try_block_fst_indep (p : pipeline) (c d : client) :
    (client.serve.try_block p c).1 = (client.serve.try_block p d).1 := by
  induction p generalizing c d with
  | last rq => exact handle_request_fst_indep rq c d
  | more rq rest ih =>
    by_cases h : (handle_request rq c).1 = .ok true
    · have k : (handle_request rq d).1 = .ok true := by
        rw [← handle_request_fst_indep rq c d]
        exact h
      rw [try_block_more_true rq rest c h, try_block_more_true rq rest d k]
      exact ih _ _
    · have k : (handle_request rq d).1 ≠ .ok true := by
        rw [← handle_request_fst_indep rq c d]
        exact h
      rw [try_block_more_stop rq rest c h, try_block_more_stop rq rest d k]
      exact handle_request_fst_indep rq c d

/-- What `client::main` returns depends on the requests only, not on the state of the connection. -/
theorem main_fst_indep (v : env) (p : pipeline) (c d : client) :
    (client.main v p c).1 = (client.main v p d).1 := by
  rw [main_fst, main_fst, serve_fst, serve_fst, try_block_fst_indep p c d]

/-- Request events are no completions, submissions, scheduled reads or returns of `main`. -/
theorem of_request_counts (sm : List event) (hreq : ∀ e ∈ sm, e.of_request) :
    sm.filterMap event.completion? = [] ∧ sm.count .submit = 0 ∧
      (∀ t, sm.count (.async_recv t) = 0) ∧ (∀ b, sm.count (.main_returned b) = 0) := by
  refine ⟨?_, ?_, ?_, ?_⟩
  · rw [List.filterMap_eq_nil_iff]
    intro e he
    have := hreq e he
    cases e <;> simp_all [event.of_request, event.completion?]
  · rw [List.count_eq_zero]
    intro h
    exact absurd (hreq _ h) (by simp [event.of_request])
  · intro t
    rw [List.count_eq_zero]
    intro h
    exact absurd (hreq _ h) (by simp [event.of_request])
  · intro b
    rw [List.count_eq_zero]
    intro h
    exact absurd (hreq _ h) (by simp [event.of_request])

/-- A completion with the success code re-arms the read exactly when `main` returns true. -/
theorem rearms_success (v : env) (p : pipeline) (c : client) :
    cycle.rearms v ⟨errc.success, p⟩ = true ↔ (client.main v p c).1 = .returned true := by
  rw [main_fst_indep v p c client.accepted]
  simp [cycle.rearms]

/-- A completion with another code than success does not re-arm the read. -/
theorem rearms_other (v : env) (ec : Int) (p : pipeline) (h : ec ≠ errc.success) :
    cycle.rearms v ⟨ec, p⟩ = false := by
  simp [cycle.rearms, h]

/-- The log of `async_recv_next` against the script: which completions are
handled, how many tasks are submitted, how many reads are scheduled, and where
the connection stands. -/
theorem async_recv_next_counts (v : env) (timeout : Int) (xs : List cycle) (c : client) :
    ∃ s, (async_recv_next v timeout xs c).2.log = c.log ++ s ∧
      s.filterMap event.completion? = (cycle.reached v xs).map (fun x => x.ec) ∧
      s.count .submit
        = ((cycle.reached v xs).filter fun x => decide (x.ec = errc.success)).length ∧
      s.count (.async_recv timeout)
        = 1 + ((cycle.reached v xs).filter (cycle.rearms v)).length ∧
      s.count (.main_returned true)
        = ((cycle.reached v xs).filter (cycle.rearms v)).length ∧
      ((async_recv_next v timeout xs c).1 = .awaiting ↔ ∀ x ∈ xs, cycle.rearms v x = true) := by
  induction xs generalizing c with
  | nil =>
    refine ⟨[.async_recv timeout], by simp [async_recv_next, client.emit], ?_, ?_, ?_, ?_, ?_⟩
    · simp [cycle.reached, event.completion?]
    · simp [cycle.reached]
    · simp [cycle.reached]
    · simp [cycle.reached]
    · simp [async_recv_next]
  | cons x xs ih =>
    obtain ⟨ec, p⟩ := x
    by_cases h0 : ec = errc.success
    · subst h0
      have hr := rearms_success v p
        { c with log := c.log ++ [.async_recv timeout, .completion errc.success, .submit] }
      rw [async_recv_next_success]
      obtain ⟨sm, hsm, -, hreq⟩ := main_log v p
        { c with log := c.log ++ [.async_recv timeout, .completion errc.success, .submit] }
      obtain ⟨q1, q2, q3, q4⟩ := of_request_counts sm hreq
      rcases hm : client.main v p
        { c with log := c.log ++ [.async_recv timeout, .completion errc.success, .submit] }
        with ⟨o, c2⟩
      rw [hm] at hsm hr
      simp only [List.append_assoc, List.cons_append, List.nil_append] at hsm
      simp only at hr
      rcases o with b | _
      · cases b
        · have hf : cycle.rearms v ⟨errc.success, p⟩ = false := by
            cases k : cycle.rearms v ⟨errc.success, p⟩
            · rfl
            · exact absurd (hr.mp k) (by decide)
          refine ⟨.async_recv timeout :: .completion errc.success :: .submit ::
              (sm ++ [.main_returned false]), by simp [hsm], ?_, ?_, ?_, ?_, ?_⟩
          · simp [cycle.reached, hf, event.completion?, List.filterMap_append, q1]
          · simp [cycle.reached, hf, List.count_cons, q2]
          · simp [cycle.reached, hf, List.count_cons, q3]
          · simp [cycle.reached, hf, List.count_cons, q4]
          · simp [hf]
        · have ht : cycle.rearms v ⟨errc.success, p⟩ = true := hr.mpr rfl
          obtain ⟨s1, hs1, a1, a2, a3, a4, a5⟩ :=
            ih { c2 with log := c2.log ++ [.main_returned true] }
          refine ⟨.async_recv timeout :: .completion errc.success :: .submit ::
              (sm ++ .main_returned true :: s1), by rw [hs1]; simp [hsm], ?_, ?_, ?_, ?_, ?_⟩
          · simp [cycle.reached, ht, event.completion?, List.filterMap_append, q1, a1]
          · simp [cycle.reached, ht, List.count_cons, q2, a2]
          · simp [cycle.reached, ht, List.count_cons, q3, a3]
            omega
          · simp [cycle.reached, ht, List.count_cons, q4, a4]
          · simp only []
            rw [a5]
            simp [ht]
      · have hf : cycle.rearms v ⟨errc.success, p⟩ = false := by
          cases k : cycle.rearms v ⟨errc.success, p⟩
          · rfl
          · exact absurd (hr.mp k) (by decide)
        refine ⟨.async_recv timeout :: .completion errc.success :: .submit :: sm,
          by simp [hsm], ?_, ?_, ?_, ?_, ?_⟩
        · simp [cycle.reached, hf, event.completion?, q1]
        · simp [cycle.reached, hf, List.count_cons, q2]
        · simp [cycle.reached, hf, List.count_cons, q3]
        · simp [cycle.reached, hf, List.count_cons, q4]
        · simp [hf]
    · have hf := rearms_other v ec p h0
      by_cases h1 : ec = eof
      · subst h1
        rw [async_recv_next_eof]
        refine ⟨[.async_recv timeout, .completion eof, .disconnect .FIN_RECV], by simp,
          ?_, ?_, ?_, ?_, ?_⟩
        · simp [cycle.reached, hf, event.completion?]
        · simp [cycle.reached, hf, h0]
        · simp [cycle.reached, hf]
        · simp [cycle.reached, hf]
        · simp [hf]
      · by_cases h2 : ec = errc.operation_canceled
        · subst h2
          rw [async_recv_next_timeout]
          refine ⟨[.async_recv timeout, .completion errc.operation_canceled,
            .disconnect v.dc_default], by simp, ?_, ?_, ?_, ?_, ?_⟩
          · simp [cycle.reached, hf, event.completion?]
          · simp [cycle.reached, hf, h0]
          · simp [cycle.reached, hf]
          · simp [cycle.reached, hf]
          · simp [hf]
        · rw [async_recv_next_default v timeout ec p xs c h0 h1 h2]
          refine ⟨[.async_recv timeout, .completion ec], by simp, ?_, ?_, ?_, ?_, ?_⟩
          · simp [cycle.reached, hf, event.completion?]
          · simp [cycle.reached, hf, h0]
          · simp [cycle.reached, hf]
          · simp [cycle.reached, hf]
          · simp [hf]

/-- C9: in the log of a connection made by `add_client`, the first event is a
read scheduled with `async_timeout` (3 hours) and every scheduled read uses
that timeout; a task is submitted exactly after a successful completion, a
read is scheduled (other than the first) exactly after `client->main()`
returned true, and the log never ends on a successful completion or on a
true return of `main` with the follow-up missing. Against the script: the
completions handled are, in order, those of the script up to and including the
first that does not re-arm the read; one task is submitted per successful
completion among them; `main` returned true once per completion that re-arms,
and one read is scheduled at the start and one more per such completion; the
connection is left awaiting a read exactly when every completion of the script
re-arms. -/
theorem add_client_schedule (v : env) (cycles : List cycle) :
    async_timeout = 3 * 60 * 60 * 1000 ∧
      (add_client v cycles).2.log.head? = some (.async_recv async_timeout) ∧
      (∀ t, event.async_recv t ∈ (add_client v cycles).2.log → t = async_timeout) ∧
      List.Chain' scheduled (add_client v cycles).2.log ∧
      (add_client v cycles).2.log.getLast? ≠ some (.main_returned true) ∧
      (add_client v cycles).2.log.getLast? ≠ some (.completion errc.success) ∧
      (add_client v cycles).2.log.filterMap event.completion?
        = (cycle.reached v cycles).map (fun x => x.ec) ∧
      (add_client v cycles).2.log.count .submit
        = ((cycle.reached v cycles).filter fun x => decide (x.ec = errc.success)).length ∧
      (add_client v cycles).2.log.count (.main_returned true)
        = ((cycle.reached v cycles).filter (cycle.rearms v)).length ∧
      (add_client v cycles).2.log.count (.async_recv async_timeout)
        = 1 + ((cycle.reached v cycles).filter (cycle.rearms v)).length ∧
      ((add_client v cycles).1 = .awaiting ↔ ∀ x ∈ cycles, cycle.rearms v x = true) := by
  obtain ⟨s, hs, ch, ha, l1, l2⟩ :=
    async_recv_next_log v async_timeout cycles client.accepted
  obtain ⟨s2, hs2, b1, b2, b3, b4, b5⟩ :=
    async_recv_next_counts v async_timeout cycles client.accepted
  have hl : (add_client v cycles).2.log = .async_recv async_timeout :: s := by
    rw [add_client, hs]
    rfl
  have hl2 : (add_client v cycles).2.log = s2 := by
    rw [add_client, hs2]
    rfl
  refine ⟨rfl, ?_, ?_, ?_, ?_, ?_, ?_, ?_, ?_, ?_, b5⟩
  · rw [hl]
    rfl
  · rw [hl]
    intro t ht
    rcases List.mem_cons.mp ht with k | k
    · exact event.async_recv.inj k
    · exact ha t k
  · rw [hl]
    exact ch
  · rw [hl]
    exact l1
  · rw [hl]
    exact l2
  · rw [hl2]
    exact b1
  · rw [hl2]
    exact b2
  · rw [hl2]
    exact b4
  · rw [hl2]
    exact b3

/-- C10: `handle_ec` returns true for the success code and for no other; for
end-of-file and for operation-canceled it returns false after exactly one
disconnect, and the completion handler then leaves the connection closed with
nothing further logged: no task submitted, no read scheduled. A task is
submitted for the first completion exactly when its code is success. -/
theorem handle_ec_cases (v : env) (timeout : Int) (p : pipeline) (xs : List cycle)
    (c : client) :
    handle_ec v errc.success c = (.ok true, c) ∧
      (∀ ec, (handle_ec v ec c).1 = .ok true ↔ ec = errc.success) ∧
      handle_ec v eof c
        = (.ok false, { c with log := c.log ++ [.disconnect .FIN_RECV] }) ∧
      handle_ec v errc.operation_canceled c
        = (.ok false, { c with log := c.log ++ [.disconnect v.dc_default] }) ∧
      async_recv_next v timeout (⟨eof, p⟩ :: xs) c =
        (.closed, { c with log := c.log ++
          [.async_recv timeout, .completion eof, .disconnect .FIN_RECV] }) ∧
      async_recv_next v timeout (⟨errc.operation_canceled, p⟩ :: xs) c =
        (.closed, { c with log := c.log ++
          [.async_recv timeout, .completion errc.operation_canceled,
            .disconnect v.dc_default] }) ∧
      (∀ ec, event.submit ∈ (add_client v (⟨ec, p⟩ :: xs)).2.log ↔ ec = errc.success) := by
  refine ⟨rfl, ?_, rfl, rfl, async_recv_next_eof v timeout p xs c,
    async_recv_next_timeout v timeout p xs c, ?_⟩
  · intro ec
    by_cases h0 : ec = errc.success
    · subst h0
      simp [handle_ec, handle_ec_success]
    · by_cases h1 : ec = eof
      · subst h1
        simp [handle_ec, h0, handle_ec_eof]
      · by_cases h2 : ec = errc.operation_canceled
        · subst h2
          simp [handle_ec, h0, h1, handle_ec_timeout]
        · simp [handle_ec_default v ec c h0 h1 h2, h0]
  · intro ec
    by_cases h0 : ec = errc.success
    · subst h0
      simp only [iff_true]
      rw [add_client, async_recv_next_success]
      obtain ⟨sm, hsm, -, -⟩ := main_log v p
        { client.accepted with log := client.accepted.log ++
          [.async_recv async_timeout, .completion errc.success, .submit] }
      rcases hm : client.main v p
        { client.accepted with log := client.accepted.log ++
          [.async_recv async_timeout, .completion errc.success, .submit] } with ⟨o, c2⟩
      rw [hm] at hsm
      dsimp only at hsm
      rcases o with b | _
      · cases b
        · simp [hsm]
        · obtain ⟨s1, hs1, -⟩ := async_recv_next_log v async_timeout xs
            { c2 with log := c2.log ++ [.main_returned true] }
          simp only []
          rw [hs1]
          simp [hsm]
      · simp [hsm]
    · by_cases h1 : ec = eof
      · subst h1
        rw [add_client, async_recv_next_eof]
        simp [h0, client.accepted]
      · by_cases h2 : ec = errc.operation_canceled
        · subst h2
          rw [add_client, async_recv_next_timeout]
          simp [h0, client.accepted]
        · rw [add_client, async_recv_next_default v async_timeout ec p xs _ h0 h1 h2]
          simp [h0, client.accepted]

/-- C11: a read through the read closure that fails with operation-canceled
leaves the closure as `http::error` REQUEST_TIMEOUT, and `handle_request`
then returns false, before the head is complete as well as in the handler;
any other `system_error`, and any other exception, leaves the closure
unchanged; a failed read never leaves the closure as a success. -/
theorem read_closure_errors (start : Nat) (c : client) (h : http.request.head) :
    read_closure start (.error (.system_error errc.operation_canceled))
        = .error (.http_error http.REQUEST_TIMEOUT) ∧
      (∀ ec, (handle_request.try_block (.read_error ec) c).1
        = (read_closure start (.error (.system_error ec))).map fun _ => ()) ∧
      (handle_request (.read_error errc.operation_canceled) c).1 = .ok false ∧
      (handle_request (.proffers h (.read_error errc.operation_canceled)) c).1
        = .ok false ∧
      (∀ ec, ec ≠ errc.operation_canceled →
        read_closure start (.error (.system_error ec)) = .error (.system_error ec)) ∧
      (∀ e, (∀ ec, e ≠ .system_error ec) → read_closure start (.error e) = .error e) ∧
      (∀ e, ∃ x, read_closure start (.error e) = .error x) := by
  refine ⟨rfl, ?_, rfl, rfl, ?_, ?_, ?_⟩
  · intro ec
    simp only [handle_request.try_block, http.request.construct, read_closure, read]
    rfl
  · intro ec hec
    simp [read_closure, read, read_closure.handle_error, hec]
  · intro e he
    cases e with
    | system_error ec => exact absurd rfl (he ec)
    | http_error code => rfl
    | std_exception w => rfl
    | non_std => rfl
  · intro e
    cases e with
    | system_error ec => exact ⟨_, rfl⟩
    | http_error code => exact ⟨_, rfl⟩
    | std_exception w => exact ⟨_, rfl⟩
    | non_std => exact ⟨_, rfl⟩

/-- Witness of C11: a read that fails with connection-reset (104). -/
theorem read_closure_errors_witness :
    read_closure 0 (.error (.system_error 104)) = .error (.system_error 104) :=
  (read_closure_errors 0 client.accepted ⟨"GET", "/", 0⟩).2.2.2.2.1 104 (by decide)

/-- C13: the destructor of `server::request` makes no call for a request with
no tag; for one with a tag it calls `cancel` and then, only when the tag is
still attached after `cancel`, `disassociate` on that tag; in every case the
closing assertion holds and the request ends with no tag. -/
theorem request_destructor (cancel : server.request → server.request)
    (r : server.request) :
    (r.tag = none → server.request.destructor cancel r = some (r, [])) ∧
      (r.tag ≠ none →
        server.request.destructor cancel r =
          some ({ cancel r with tag := none },
            .cancel :: match (cancel r).tag with
              | some t => [.disassociate t]
              | none => [])) ∧
      ∃ s calls, server.request.destructor cancel r = some (s, calls) ∧ s.tag = none := by
  rcases r with ⟨tag⟩
  cases tag with
  | none =>
    refine ⟨fun _ => rfl, fun h => absurd rfl h, ⟨_, _, rfl, rfl⟩⟩
  | some t =>
    have key : server.request.destructor cancel ⟨some t⟩ =
        some ({ cancel ⟨some t⟩ with tag := none },
          .cancel :: match (cancel ⟨some t⟩).tag with
            | some t => [.disassociate t]
            | none => []) := by
      simp only [server.request.destructor, Option.isSome_some, if_true]
      rcases hc : cancel ⟨some t⟩ with ⟨tag1⟩
      cases tag1 <;> simp [server.disassociate]
    exact ⟨fun h => (by cases h), fun _ => key, ⟨_, _, key, rfl⟩⟩

/-- Witness of C13: a request with tag 7 whose `cancel` leaves the tag attached. -/
theorem request_destructor_witness :
    server.request.destructor id ⟨some 7⟩
      = some (⟨none⟩, [.cancel, .disassociate 7]) :=
  (request_destructor id ⟨some 7⟩).2.1 (by simp)

/-- Bit `i` of `flags` is set exactly when masking with `1 << i` leaves something. -/
theorem and_shiftLeft_ne_zero (flags i : Nat) :
    flags &&& (1 <<< i) ≠ 0 ↔ flags.testBit i = true := by
  rw [Nat.one_shiftLeft]
  constructor
  · intro h
    by_contra hb
    apply h
    apply Nat.eq_of_testBit_eq
    intro j
    simp only [Nat.testBit_and, Nat.testBit_two_pow, Nat.zero_testBit]
    by_cases hij : i = j
    · subst hij
      simp [hb]
    · simp [hij]
  · intro hb h
    have := congrArg (fun x => Nat.testBit x i) h
    simp [Nat.testBit_and, Nat.testBit_two_pow, hb] at this

/-- A name is five characters long, or as much longer as its case has it. -/
theorem reflect_flag_length_le (fe : fpe.fenv) (f : Nat) :
    (fpe.reflect_flag fe f).length ≤
      5 + (if f = fe.FE_INVALID then 2 else 0) + (if f = fe.FE_DIVBYZERO then 4 else 0)
        + (if f = fe.FE_UNDERFLOW then 4 else 0) + (if f = fe.FE_OVERFLOW then 3 else 0)
        + (if f = fe.FE_INEXACT then 2 else 0) := by
  unfold fpe.reflect_flag
  split_ifs <;> simp

/-- At most one of the 16 single bits equals a given value. -/
theorem sum_indicator_le (c w : Nat) :
    ((List.range 16).map fun i => if 1 <<< i = c then w else 0).sum ≤ w := by
  by_cases h : ∃ k, k < 16 ∧ 1 <<< k = c
  · obtain ⟨k, hk, rfl⟩ := h
    have hr : List.range 16 = [0, 1, 2, 3, 4, 5, 6, 7, 8, 9, 10, 11, 12, 13, 14, 15] := by
      decide
    rw [hr]
    interval_cases k <;> simp
  · have hz : ∀ i ∈ List.range 16, (if 1 <<< i = c then w else 0) = 0 := by
      intro i hi
      have hi16 : i < 16 := List.mem_range.mp hi
      have : ¬ 1 <<< i = c := fun e => h ⟨i, hi16, e⟩
      simp [this]
    rw [List.map_congr_left hz]
    simp

/-- The names of all 16 bits together have at most 95 characters. -/
theorem names_total_le (fe : fpe.fenv) :
    ((List.range 16).map fun i => (fpe.reflect_flag fe (1 <<< i)).length).sum ≤ 95 := by
  refine le_trans (List.sum_le_sum fun i _ => reflect_flag_length_le fe (1 <<< i)) ?_
  simp only [List.sum_map_add]
  have h1 := sum_indicator_le fe.FE_INVALID 2
  have h2 := sum_indicator_le fe.FE_DIVBYZERO 4
  have h3 := sum_indicator_le fe.FE_UNDERFLOW 4
  have h4 := sum_indicator_le fe.FE_OVERFLOW 3
  have h5 := sum_indicator_le fe.FE_INEXACT 2
  have h0 : ((List.range 16).map fun _ => 5).sum = 80 := by decide
  omega

/-- The loop of `fpe::reflect` over any bits copies every name whole as long as
the names of those bits fit in what the buffer has left. -/
theorem reflect_foldl (fe : fpe.fenv) (size flags : Nat) (l : List Nat) (wb : List Char)
    (h : wb.length + (l.map fun i => (fpe.reflect_flag fe (1 <<< i)).length).sum < size) :
    l.foldl
        (fun wb i =>
          if flags &&& (1 <<< i) ≠ 0 then
            wb ++ strlcpy (size - wb.length) (fpe.reflect_flag fe (1 <<< i))
          else wb)
        wb
      = wb ++ ((l.filter fun i => flags.testBit i).map
          fun i => fpe.reflect_flag fe (2 ^ i)).flatten := by
  induction l generalizing wb with
  | nil => simp
  | cons i l ih =>
    simp only [List.map_cons, List.sum_cons] at h
    rw [List.foldl_cons]
    by_cases hb : flags.testBit i = true
    · have hm : flags &&& (1 <<< i) ≠ 0 := (and_shiftLeft_ne_zero flags i).mpr hb
      have hc : strlcpy (size - wb.length) (fpe.reflect_flag fe (1 <<< i))
          = fpe.reflect_flag fe (1 <<< i) := by
        unfold strlcpy
        apply List.take_of_length_le
        omega
      rw [if_pos hm, hc, ih _ (by rw [List.length_append]; omega)]
      simp [List.filter_cons, hb, Nat.one_shiftLeft]
    · have hm : ¬ flags &&& (1 <<< i) ≠ 0 := fun k => hb ((and_shiftLeft_ne_zero flags i).mp k)
      rw [if_neg hm, ih _ (by omega)]
      simp [List.filter_cons, hb]

/-- The length of several names one after the other. -/
theorem names_length_le (fe : fpe.fenv) (flags : Nat) :
    (fpe.names fe flags).length ≤
      ((List.range 16).map fun i => (fpe.reflect_flag fe (1 <<< i)).length).sum := by
  unfold fpe.names
  rw [List.length_flatten, List.map_map]
  have hs : ((List.range 16).filter fun i => flags.testBit i).Sublist (List.range 16) :=
    List.filter_sublist _
  have := (hs.map fun i => (fpe.reflect_flag fe (1 <<< i)).length).sum_le_sum
    (fun a _ => Nat.zero_le a)
  simpa [Function.comp_def, Nat.one_shiftLeft] using this

/-- C20: `fpe::throw_errors` returns without throwing exactly when `flags` is
zero; otherwise it throws with the message `fpe::reflect` writes into its
128-byte buffer, which is the names of the set bits among the 16 bits of
`flags`, lowest bit first, one after the other; that text has at most 95
characters, so nothing of it is cut off. -/
theorem throw_errors_message (fe : fpe.fenv) (flags : Nat) :
    (fpe.throw_errors fe flags = .ok () ↔ flags = 0) ∧
      (flags ≠ 0 → fpe.throw_errors fe flags = .error (fpe.reflect fe 128 flags)) ∧
      fpe.reflect fe 128 flags = fpe.names fe flags ∧
      (fpe.names fe flags).length ≤ 95 ∧
      (fpe.reflect fe 128 flags).length + 1 ≤ 128 := by
  have hfit := names_total_le fe
  have hr : fpe.reflect fe 128 flags = fpe.names fe flags := by
    unfold fpe.reflect fpe.names
    rw [reflect_foldl fe 128 flags (List.range 16) [] (by simp only [List.length_nil]; omega)]
    simp
  have hl := names_length_le fe flags
  refine ⟨?_, ?_, hr, by omega, by rw [hr]; omega⟩
  · unfold fpe.throw_errors
    by_cases h : flags = 0 <;> simp [h]
  · intro h
    simp [fpe.throw_errors, h]

/-- Witness of C20: the flags 5 with the values of the macros on x86-64. -/
theorem throw_errors_message_witness :
    fpe.throw_errors ⟨1, 4, 16, 8, 32⟩ 5 = .error (fpe.reflect ⟨1, 4, 16, 8, 32⟩ 128 5) ∧
      fpe.reflect ⟨1, 4, 16, 8, 32⟩ 128 5 = "INVALIDDIVBYZERO".toList :=
  ⟨(throw_errors_message ⟨1, 4, 16, 8, 32⟩ 5).2.1 (by decide), by decide⟩

/-- A text of at most 63 characters comes out of `string` whole. -/
theorem string_short (pair : List Char × Nat) (h : (string.text pair).length ≤ 63) :
    string pair = string.text pair := by
  simp only [string, snprintf, resize, List.length_replicate]
  have h1 : List.take 63 (string.text pair) = string.text pair := List.take_of_length_le h
  simp [h1]

/-- A text of more than 63 characters comes out of `string` as its first 63
characters followed by NUL characters up to the length of the text. -/
theorem string_long (pair : List Char × Nat) (h : 63 < (string.text pair).length) :
    string pair = (string.text pair).take 63
      ++ List.replicate ((string.text pair).length - 63) '\x00' := by
  simp only [string, snprintf, resize, List.length_replicate]
  have h1 : (List.take 63 (string.text pair)).length = 63 := by
    rw [List.length_take]
    omega
  have h2 : ¬ (string.text pair).length ≤ 64 ∨ (string.text pair).length = 64 := by omega
  rcases h2 with h2 | h2
  · simp [h1, h2]
    have : (string.text pair).length - 63 = (string.text pair).length - 64 + 1 := by omega
    rw [this, List.replicate_succ]
  · simp [h1, h2]

/-- C19 at a host of 70 characters: the text has 75 characters, and `string`
returns 75 characters, the first 63 of the text and then 12 NUL characters. -/
theorem string_long_host :
    (string.text (List.replicate 70 'a', 6667)).length = 75 ∧
      (string (List.replicate 70 'a', 6667)).length = 75 ∧
      '\x00' ∈ string (List.replicate 70 'a', 6667) ∧
      string (List.replicate 70 'a', 6667)
        = List.replicate 63 'a' ++ List.replicate 12 '\x00' := by
  have ht : string.text (List.replicate 70 'a', 6667)
      = List.replicate 70 'a' ++ ":6667".toList := by decide
  have hs := string_long (List.replicate 70 'a', 6667) (by rw [ht]; decide)
  rw [ht] at hs
  have hv : string (List.replicate 70 'a', 6667)
      = List.replicate 63 'a' ++ List.replicate 12 '\x00' := by
    rw [hs]
    decide
  refine ⟨by rw [ht]; decide, by rw [hv]; decide, by rw [hv]; decide, hv⟩

/-- When `readline` returns, the search has just failed: the view it returns
has length 1. -/
theorem readline_returns (ret : List Char) (script : List (Except exception (List Char)))
    (view : List Char) (len : Nat) (h : readline ret script = .returns view len) :
    len = 1 ∧ view.length ≤ 1 := by
  induction script generalizing ret with
  | nil => simp [readline] at h
  | cons x rest ih =>
    rcases x with e | bytes
    · simp [readline] at h
    · simp only [readline] at h
      split at h
      · exact ih _ h
      · rename_i hp
        have hp1 : find (ret ++ bytes) "\r\n".toList = npos := by
          by_contra k
          exact hp k
        rw [hp1] at h
        simp only [readline.result.returns.injEq] at h
        obtain ⟨rfl, rfl⟩ := h
        refine ⟨by decide, ?_⟩
        rw [List.length_take]
        have : (npos + 2) % 2 ^ 64 = 1 := by decide
        omega

/-- C17 at three inputs: given a whole line, `readline` reads on and does not
return, also when more arrives; given the start of a line, it returns at once
with the view of its first character. -/
theorem readline_inverted :
    readline [] [.ok "PING\r\n".toList] = .blocked ∧
      readline [] [.ok "PING\r\n".toList, .ok "x".toList] = .blocked ∧
      readline [] [.ok "PI".toList, .ok "NG\r\n".toList] = .returns ['P'] 1 := by
  refine ⟨by decide, by decide, by decide⟩

/-- An `int64_t` result that is in range is the exact result. -/
theorem int64_of_range (x : Int) (h0 : -2 ^ 63 ≤ x) (h1 : x < 2 ^ 63) : int64 x = x := by
  unfold int64
  omega

/-- What `room_state_linear_events` does away from overflow. It returns false
and writes nothing when the event index is zero, the room is absent, the
membership is empty or the event has no `state_key`; when it returns false it
writes nothing, and when it returns true it writes the event into the section
named "invite_state" for the membership "invite" and "state" otherwise. When
the depth test is enabled (`state_exposure_depth > -1`) and
`depth + state_exposure_depth` does not overflow `int64_t`, it returns true
exactly when none of the four conditions holds and
`depth + state_exposure_depth < room_depth`; with the test disabled, exactly
when none of the four holds. -/
theorem room_state_linear_events_depth (d : Int) (data : m.sync.data) :
    ((data.event_idx = 0 ∨ data.room = none ∨ data.membership = "" ∨ data.state_key = "") →
        m.sync.room_state_linear_events d data = (false, [])) ∧
      ((-1 < d → -2 ^ 63 ≤ data.depth + d ∧ data.depth + d < 2 ^ 63) →
        ((m.sync.room_state_linear_events d data).1 = true ↔
          data.event_idx ≠ 0 ∧ data.room ≠ none ∧ data.membership ≠ "" ∧
            data.state_key ≠ "" ∧ (d ≤ -1 ∨ data.depth + d < data.room_depth))) ∧
      ((m.sync.room_state_linear_events d data).1 = false →
        (m.sync.room_state_linear_events d data).2 = []) ∧
      ((m.sync.room_state_linear_events d data).1 = true →
        ∃ room_id, data.room = some room_id ∧
          (m.sync.room_state_linear_events d data).2 =
            [.object "rooms", .object data.membership, .object room_id,
              .object (if data.membership = "invite" then "invite_state" else "state"),
              .array "events", .append data.event_idx]) := by
  rcases data with ⟨idx, room, mem, key, depth, rdepth⟩
  dsimp only
  by_cases e0 : idx = 0
  · simp [m.sync.room_state_linear_events, e0]
  · cases room with
    | none => simp [m.sync.room_state_linear_events, e0]
    | some room_id =>
      by_cases e1 : mem = ""
      · simp [m.sync.room_state_linear_events, e0, e1]
      · by_cases e2 : key = ""
        · simp [m.sync.room_state_linear_events, e0, e1, e2]
        · by_cases e3 : d > -1 ∧ int64 (depth + d) ≥ rdepth
          · have hv : m.sync.room_state_linear_events d
                ⟨idx, some room_id, mem, key, depth, rdepth⟩ = (false, []) := by
              unfold m.sync.room_state_linear_events
              simp only [e0, e1, e2, e3, if_false, if_true, and_self]
            rw [hv]
            refine ⟨fun _ => rfl, ?_, fun _ => rfl, ?_⟩
            · intro hr
              have hw := int64_of_range (depth + d) (hr e3.1).1 (hr e3.1).2
              rw [hw] at e3
              constructor
              · intro h
                cases h
              · rintro ⟨-, -, -, -, hor⟩
                exfalso
                omega
            · intro h
              cases h
          · have hv : m.sync.room_state_linear_events d
                ⟨idx, some room_id, mem, key, depth, rdepth⟩ =
                (true,
                  [.object "rooms", .object mem, .object room_id,
                    .object (if mem = "invite" then "invite_state" else "state"),
                    .array "events", .append idx]) := by
              unfold m.sync.room_state_linear_events
              simp only [e0, e1, e2, e3, if_false]
            rw [hv]
            refine ⟨?_, ?_, ?_, ?_⟩
            · intro h
              rcases h with h | h | h | h
              · exact absurd h e0
              · cases h
              · exact absurd h e1
              · exact absurd h e2
            · intro hr
              refine ⟨fun _ => ⟨e0, by simp, e1, e2, ?_⟩, fun _ => rfl⟩
              by_cases hd : d ≤ -1
              · exact Or.inl hd
              · refine Or.inr ?_
                have hw := int64_of_range (depth + d) (hr (by omega)).1 (hr (by omega)).2
                rw [hw] at e3
                by_contra k
                exact e3 ⟨by omega, by omega⟩
            · intro h
              cases h
            · intro _
              exact ⟨room_id, rfl, rfl⟩

/-- C16 at the failing input. For an event whose depth is the largest
`int64_t`, in a room of that depth, with the exposure depth 20 (its default),
the sum `depth + 20` at state.cc:128 overflows `int64_t`; wrapping around, it
falls below the room depth, so the event is written to the "state" section and
true is returned, although `depth + 20 >= room_depth`. -/
theorem room_state_linear_events_overflow :
    (20 : Int) > -1 ∧
      (9223372036854775807 : Int) + 20 ≥ 9223372036854775807 ∧
      int64 (9223372036854775807 + 20) = -9223372036854775789 ∧
      m.sync.room_state_linear_events 20
          ⟨7, some "!r:h", "join", "@u:h", 9223372036854775807, 9223372036854775807⟩
        = (true,
            [.object "rooms", .object "join", .object "!r:h", .object "state",
              .array "events", .append 7]) := by
  refine ⟨by decide, by decide, by decide, ?_⟩
  decide

/-- C18 at two inputs. A message of "@bob:example.com" followed by one of
"@bob:example.co": the second sender is taken for one that already occurred,
since the first starts with it, and one event is appended for two distinct
senders. Two messages of one sender of 50 characters: the record of the first
is cut to 47 characters and does not start with the sender, and two events
are appended for one sender. Every fetch succeeds. -/
theorem phased_member_events_senders :
    m.sync.room_state_phased_member_events
        [⟨1, some "@bob:example.com".toList, true⟩,
          ⟨2, some "@bob:example.co".toList, true⟩] = (true, [1]) ∧
      m.sync.room_state_phased_member_events
        [⟨1, some ('@' :: List.replicate 45 'a' ++ ":h.x".toList), true⟩,
          ⟨2, some ('@' :: List.replicate 45 'a' ++ ":h.x".toList), true⟩]
        = (true, [1, 2]) := by
  refine ⟨by decide, by decide⟩

/-- C12: constructing a client whose address is not in the registry puts it
at the end of the registry, where it then is exactly once; destroying a
client of a registry without repetitions removes exactly its entry and leaves
the other entries and their order as they were; a client constructed and
destroyed leaves the registry as it was, and so does a connection that
`add_client` makes and its idle timeout closes. -/
theorem clients_registry (this : Nat) (clients : List Nat) (hn : clients.Nodup)
    (hf : this ∉ clients) :
    client.constructor this clients = clients ++ [this] ∧
      (client.constructor this clients).count this = 1 ∧
      (client.constructor this clients).Nodup ∧
      (∀ other ∈ client.constructor this clients,
        client.destructor other (client.constructor this clients)
            = (client.constructor this clients).filter (fun x => x != other) ∧
          (client.destructor other (client.constructor this clients)).length + 1
            = (client.constructor this clients).length ∧
          other ∉ client.destructor other (client.constructor this clients)) ∧
      client.destructor this (client.constructor this clients) = clients ∧
      (∀ v p xs,
        add_client.lifetime v this (⟨errc.operation_canceled, p⟩ :: xs) clients
          = (.closed, clients)) := by
  have hnd : (clients ++ [this]).Nodup := by
    rw [List.nodup_append]
    refine ⟨hn, List.nodup_singleton _, ?_⟩
    intro a ha hb
    rw [List.mem_singleton] at hb
    subst hb
    exact hf ha
  have hd : client.destructor this (client.constructor this clients) = clients := by
    unfold client.destructor client.constructor
    rw [List.erase_append_right _ hf]
    simp
  refine ⟨rfl, ?_, hnd, ?_, hd, ?_⟩
  · unfold client.constructor
    rw [List.count_append, List.count_eq_zero_of_not_mem hf]
    simp
  · intro other ho
    unfold client.destructor client.constructor at *
    refine ⟨hnd.erase_eq_filter other, ?_, ?_⟩
    · rw [List.length_erase_of_mem ho]
      have : 0 < (clients ++ [this]).length := List.length_pos_of_mem ho
      omega
    · exact fun k => (hnd.mem_erase_iff.mp k).1 rfl
  · intro v p xs
    unfold add_client.lifetime
    rw [add_client, async_recv_next_timeout, hd]

/-- Witness of C12: a third client, at address 30, in a registry of two. -/
theorem clients_registry_witness :
    client.constructor 30 [10, 20] = [10, 20, 30] ∧
      client.destructor 30 (client.constructor 30 [10, 20]) = [10, 20] ∧
      client.destructor 10 (client.constructor 30 [10, 20]) = [20, 30] :=
  have h := clients_registry 30 [10, 20] (by decide) (by decide)
  ⟨h.1, h.2.2.2.2.1, by decide⟩

/-- A step keeps the resolved requests followed by the queue equal to the
requests submitted. -/
theorem link_foldl (ops : List server.link.op) (l : server.link) :
    (ops.foldl server.link.step l).resolved ++ (ops.foldl server.link.step l).queue
      = l.resolved ++ l.queue ++ server.link.submitted ops := by
  induction ops generalizing l with
  | nil => simp [server.link.submitted]
  | cons op ops ih =>
    rw [List.foldl_cons, ih]
    cases op with
    | submit request =>
      simp [server.link.step, server.link.submitted, List.filterMap_cons]
    | response =>
      rcases l with ⟨queue, resolved⟩
      cases queue <;> simp [server.link.step, server.link.submitted, List.filterMap_cons]

/-- C15: on a pooled connection on which no request is canceled, after any
sequence of submissions and responses the requests resolved so far, in the
order of their resolution, followed by the requests still queued, are the
requests submitted, in the order of their submission; so the resolved
requests are a prefix of the submitted ones, and all of them in that order
once no tag is outstanding. -/
theorem link_fifo (ops : List server.link.op) :
    (server.link.run ops).resolved ++ (server.link.run ops).queue
        = server.link.submitted ops ∧
      (server.link.run ops).resolved <+: server.link.submitted ops ∧
      ((server.link.run ops).queue = [] →
        (server.link.run ops).resolved = server.link.submitted ops) := by
  have h : (server.link.run ops).resolved ++ (server.link.run ops).queue
      = server.link.submitted ops := by
    unfold server.link.run
    rw [link_foldl]
    simp
  refine ⟨h, ⟨_, h⟩, ?_⟩
  intro hq
  rw [hq, List.append_nil] at h
  exact h

/-- Witness of C15: three requests, the second submitted after the first
response, all three answered. -/
theorem link_fifo_witness :
    (server.link.run
        [.submit 1, .response, .submit 2, .submit 3, .response, .response]).resolved
      = [1, 2, 3] :=
  (link_fifo [.submit 1, .response, .submit 2, .submit 3, .response, .response]).2.2
    (by decide)

/-- An invocation keeps the callbacks in flight numbered. -/
theorem enter_numbered (event_idx : Nat) (s : m.sync.fetches) (h : s.numbered) :
    (m.sync.each_idx.enter event_idx s).numbered := by
  obtain ⟨h1, h2⟩ := h
  unfold m.sync.each_idx.enter
  refine ⟨?_, ?_⟩
  · intro c hc
    simp only [List.mem_append, List.mem_singleton] at hc
    rcases hc with hc | rfl
    · exact ⟨(h1 c hc).1, Nat.lt_succ_of_lt (h1 c hc).2⟩
    · exact ⟨rfl, Nat.lt_succ_self _⟩
  · simp only [List.map_append, List.map_cons, List.map_nil]
    rw [List.nodup_append]
    refine ⟨h2, List.nodup_singleton _, ?_⟩
    intro a ha hb
    rw [List.mem_singleton] at hb
    subst hb
    obtain ⟨c, hc, hk⟩ := List.mem_map.mp ha
    have := (h1 c hc).2
    omega

/-- A move keeps the callbacks in flight numbered. -/
theorem step_numbered (s t : m.sync.fetches) (mv : m.sync.move)
    (hs : s.step mv = some t) (h : s.numbered) : t.numbered := by
  cases mv with
  | enter event_idx =>
    simp only [m.sync.fetches.step, Option.some.injEq] at hs
    subst hs
    exact enter_numbered event_idx s h
  | leave k =>
    simp only [m.sync.fetches.step] at hs
    split at hs
    · simp only [Option.some.injEq] at hs
      subst hs
      obtain ⟨h1, h2⟩ := h
      refine ⟨?_, ?_⟩
      · intro c hc
        exact h1 c (List.mem_of_mem_filter hc)
      · exact (List.filter_sublist _).map _ |>.nodup h2
    · cases hs

/-- Every state a schedule passes through has its callbacks in flight
numbered. -/
theorem run_numbered (schedule : List m.sync.move) (s : m.sync.fetches)
    (states : List m.sync.fetches) (hr : m.sync.fetches.run schedule s = some states)
    (h : s.numbered) : ∀ t ∈ states, t.numbered := by
  induction schedule generalizing s states with
  | nil =>
    simp only [m.sync.fetches.run, Option.some.injEq] at hr
    subst hr
    intro t ht
    rw [List.mem_singleton.mp ht]
    exact h
  | cons mv rest ih =>
    rw [m.sync.fetches.run] at hr
    cases h1 : s.step mv with
    | none =>
      rw [h1] at hr
      cases hr
    | some s1 =>
      rw [h1] at hr
      dsimp only at hr
      cases h2 : m.sync.fetches.run rest s1 with
      | none =>
        rw [h2] at hr
        cases hr
      | some st1 =>
        rw [h2] at hr
        simp only [Option.some.injEq] at hr
        subst hr
        intro t ht
        rcases List.mem_cons.mp ht with rfl | ht
        · exact h
        · exact ih s1 st1 h2 (step_numbered s s1 mv h1 h) t ht

/-- The counter at the state after `n` moves of a schedule is the counter at
the start plus the number of invocations among those moves. -/
theorem run_counter (schedule : List m.sync.move) (s : m.sync.fetches)
    (states : List m.sync.fetches) (hr : m.sync.fetches.run schedule s = some states)
    (n : Nat) (t : m.sync.fetches) (ht : states[n]? = some t) :
    t._i = s._i + ((schedule.take n).filter m.sync.move.is_enter).length := by
  induction schedule generalizing s states n with
  | nil =>
    simp only [m.sync.fetches.run, Option.some.injEq] at hr
    subst hr
    cases n with
    | zero =>
      simp only [List.getElem?_cons_zero, Option.some.injEq] at ht
      subst ht
      simp
    | succ n1 => simp at ht
  | cons mv rest ih =>
    rw [m.sync.fetches.run] at hr
    cases h1 : s.step mv with
    | none =>
      rw [h1] at hr
      cases hr
    | some s1 =>
      rw [h1] at hr
      dsimp only at hr
      cases h2 : m.sync.fetches.run rest s1 with
      | none =>
        rw [h2] at hr
        cases hr
      | some st1 =>
        rw [h2] at hr
        simp only [Option.some.injEq] at hr
        subst hr
        cases n with
        | zero =>
          simp only [List.getElem?_cons_zero, Option.some.injEq] at ht
          subst ht
          simp
        | succ n1 =>
          simp only [List.getElem?_cons_succ] at ht
          have k := ih s1 st1 h2 n1 ht
          rw [k, List.take_succ_cons]
          cases mv with
          | enter event_idx =>
            simp only [m.sync.fetches.step, Option.some.injEq] at h1
            subst h1
            simp [m.sync.each_idx.enter, m.sync.move.is_enter, List.filter_cons]
            omega
          | leave j =>
            simp only [m.sync.fetches.step] at h1
            split at h1
            · simp only [Option.some.injEq] at h1
              subst h1
              simp [m.sync.move.is_enter, List.filter_cons]
            · cases h1

/-- C21, as amended: the fetch buffer has 192 entries; the k-th invocation of
the callback, counting from 0, reads `k` from the counter and uses fetch slot
`k mod 192`, which is in range; and at every moment of every schedule, two
callbacks in flight whose invocation numbers differ by less than 192 use
different fetch slots, so that no slot is shared as long as no callback is
still in flight when the 192nd invocation after it is made; a callback that
is, shares its slot with that invocation. -/
theorem fetch_slots (schedule : List m.sync.move) (states : List m.sync.fetches)
    (hr : m.sync.fetches.run schedule ⟨0, []⟩ = some states) :
    m.sync.event_size = 192 ∧
      (∀ n t, states[n]? = some t →
        t._i = ((schedule.take n).filter m.sync.move.is_enter).length) ∧
      (∀ event_idx t,
        m.sync.each_idx.enter event_idx t
          = ⟨t._i + 1, t.flying ++ [⟨t._i, event_idx, t._i % 192⟩]⟩) ∧
      ∀ t ∈ states,
        (∀ c ∈ t.flying, c.i = c.k % 192 ∧ c.i < 192 ∧ c.k < t._i) ∧
          (t.flying.map fun c => c.k).Nodup ∧
          (∀ a ∈ t.flying, ∀ b ∈ t.flying, a.k < b.k → b.k < a.k + 192 → a.i ≠ b.i) ∧
          (∀ a ∈ t.flying, ∀ b ∈ t.flying, b.k = a.k + 192 → a.i = b.i) ∧
          ((∀ a ∈ t.flying, ∀ b ∈ t.flying, b.k < a.k + 192) →
            (t.flying.map fun c => c.i).Nodup) := by
  have he : m.sync.event_size = 192 := by decide
  have h0 : (⟨0, []⟩ : m.sync.fetches).numbered := by
    refine ⟨by simp, by simp⟩
  refine ⟨he, ?_, fun _ _ => rfl, ?_⟩
  · intro n t ht
    have := run_counter schedule ⟨0, []⟩ states hr n t ht
    simpa using this
  · intro t ht
    obtain ⟨h1, h2⟩ := run_numbered schedule ⟨0, []⟩ states hr h0 t ht
    rw [he] at h1
    have hc : ∀ a ∈ t.flying, ∀ b ∈ t.flying, a.k < b.k → b.k < a.k + 192 → a.i ≠ b.i := by
      intro a ha b hb hab hba e
      have ea := (h1 a ha).1
      have eb := (h1 b hb).1
      omega
    refine ⟨?_, h2, hc, ?_, ?_⟩
    · intro c hc
      have e := (h1 c hc).1
      refine ⟨e, ?_, (h1 c hc).2⟩
      omega
    · intro a ha b hb hab
      have ea := (h1 a ha).1
      have eb := (h1 b hb).1
      omega
    · intro hw
      refine List.Nodup.map_on ?_ (List.Nodup.of_map _ h2)
      intro a ha b hb e
      have hk : a.k = b.k := by
        by_contra hne
        rcases Nat.lt_or_gt_of_ne hne with hlt | hgt
        · exact hc a ha b hb hlt (hw a ha b hb) e
        · exact hc b hb a ha hgt (hw b hb a ha) e.symm
      exact List.inj_on_of_nodup_map h2 ha hb hk

/-- Witness of C21 as amended: two callbacks invoked one after the other, both
in flight. -/
theorem fetch_slots_witness :
    ((⟨2, [⟨0, 5, 0⟩, ⟨1, 6, 1⟩]⟩ : m.sync.fetches).flying.map fun c => c.i).Nodup :=
  ((fetch_slots [.enter 5, .enter 6]
      [⟨0, []⟩, ⟨1, [⟨0, 5, 0⟩]⟩, ⟨2, [⟨0, 5, 0⟩, ⟨1, 6, 1⟩]⟩] (by decide)).2.2.2
    ⟨2, [⟨0, 5, 0⟩, ⟨1, 6, 1⟩]⟩ (by decide)).2.2.2.2 (by decide)

set_option maxRecDepth 100000 in
/-- C21 fails as stated: in the schedule in which the callback of invocation 0
stays in flight while the callbacks of invocations 1 to 191 are invoked and
return one after the other, never more than 2 callbacks are in flight at
once, and when the callback of invocation 192 is invoked it takes fetch slot
0, which the callback of invocation 0 is still using. -/
theorem fetch_slot_shared :
    ∃ states, m.sync.fetches.run (m.sync.lagging 191) ⟨0, []⟩ = some states ∧
      (∀ s ∈ states, s.flying.length ≤ 2) ∧
      states.getLast? = some ⟨193, [⟨0, 0, 0⟩, ⟨192, 192, 0⟩]⟩ ∧
      ¬ ((⟨193, [⟨0, 0, 0⟩, ⟨192, 192, 0⟩]⟩ : m.sync.fetches).flying.map
        fun c => c.i).Nodup := by
  have hsome : (m.sync.fetches.run (m.sync.lagging 191) ⟨0, []⟩).isSome = true := by
    decide
  obtain ⟨states, hs⟩ := Option.isSome_iff_exists.mp hsome
  have hv : (m.sync.fetches.run (m.sync.lagging 191) ⟨0, []⟩).map
      (fun st => ((st.all fun s => decide (s.flying.length ≤ 2)), st.getLast?))
      = some (true, some ⟨193, [⟨0, 0, 0⟩, ⟨192, 192, 0⟩]⟩) := by decide
  rw [hs] at hv
  simp only [Option.map_some', Option.some.injEq, Prod.mk.injEq] at hv
  refine ⟨states, hs, ?_, hv.2, by decide⟩
  intro s hm
  have := List.all_eq_true.mp hv.1 s hm
  simpa using this

/-- A visit of `state.for_each` keeps the books. -/
theorem for_each_accounted (apropos seek : Nat → Bool) (state : List Nat)
    (s t : m.sync.polylog) (hs : s.accounted apropos seek state)
    (ht : m.sync.for_each apropos s = some t) : t.accounted apropos seek state := by
  obtain ⟨todo, i, event, seeking, waiting, mutex, array, ret, sent⟩ := s
  obtain ⟨a1, a2, a3, a4, a5⟩ := hs
  simp only [m.sync.polylog.flying] at a1 a2 a3 a4 a5
  cases todo with
  | nil => simp [m.sync.for_each] at ht
  | cons idx rest =>
    by_cases ha : apropos idx = true
    · simp only [m.sync.for_each, ha, if_true, m.sync.concurrent, m.sync.polylog.flying] at ht
      split at ht
      · rename_i hl
        simp only [Option.some.injEq] at ht
        subst ht
        simp only [List.filter_cons, ha, if_true] at a1
        refine ⟨by simp [← a1], ?_, a3, a4, ?_⟩
        · rw [← Multiset.coe_eq_coe] at a2 ⊢
          by_cases hk : seek idx = true
          · simp only [List.filter_append, List.filter_cons, hk, List.filter_nil, if_true,
              List.map_append, ← Multiset.coe_add] at a2 ⊢
            rw [← a2]
            simp only [List.map_cons, List.map_nil]
            abel
          · simp only [List.filter_append, List.filter_cons, hk, List.filter_nil,
              List.map_append, ← Multiset.coe_add] at a2 ⊢
            rw [← a2]
            simp
        · simp only [m.sync.polylog.flying, List.length_append, List.length_cons,
            List.length_nil] at hl ⊢
          omega
      · simp at ht
    · simp only [m.sync.for_each, ha] at ht
      simp only [Bool.false_eq_true, if_false, Option.some.injEq] at ht
      subst ht
      simp only [List.filter_cons, ha] at a1
      exact ⟨by simpa using a1, a2, a3, a4, a5⟩

/-- The return of a `seek` keeps the books. -/
theorem seek_accounted (apropos seek : Nat → Bool) (state : List Nat) (k : Nat)
    (s t : m.sync.polylog) (hs : s.accounted apropos seek state)
    (ht : m.sync.each_idx.seek seek k s = some t) : t.accounted apropos seek state := by
  obtain ⟨todo, i, event, seeking, waiting, mutex, array, ret, sent⟩ := s
  obtain ⟨a1, a2, a3, a4, a5⟩ := hs
  simp only [m.sync.polylog.flying] at a1 a2 a3 a4 a5
  simp only [m.sync.each_idx.seek] at ht
  cases hf : seeking.find? (fun c => c.k == k) with
  | none => simp [hf] at ht
  | some c =>
    have hm : c ∈ seeking := List.mem_of_find?_eq_some hf
    have hp : seeking.Perm (c :: seeking.erase c) := List.perm_cons_erase hm
    have hlen : (seeking.erase c).length + 1 = seeking.length := by
      rw [List.length_erase_of_mem hm]
      have := List.length_pos_of_mem hm
      omega
    simp only [hf] at ht
    by_cases hk : seek c.event_idx = true
    · simp only [hk, if_true, Option.some.injEq] at ht
      subst ht
      have hq := ((hp.filter fun c => seek c.event_idx).map fun c => c.event_idx)
      simp only [List.filter_cons, hk, if_true, List.map_cons] at hq
      rw [← Multiset.coe_eq_coe] at hq
      refine ⟨a1, ?_, ?_, a4, ?_⟩
      · rw [← Multiset.coe_eq_coe] at a2 ⊢
        simp only [List.map_append, ← Multiset.coe_add, List.map_cons, List.map_nil] at a2 ⊢
        rw [← a2, hq, ← Multiset.cons_coe, ← Multiset.singleton_add]
        rw [← Multiset.cons_coe, ← Multiset.singleton_add]
        simp only [Multiset.coe_nil, add_zero]
        abel
      · intro d hd
        simp only [List.mem_append, List.mem_singleton] at hd a3
        rcases hd with (hd | hd) | hd
        · exact a3 d (Or.inl hd)
        · rw [hd]
          exact hk
        · exact a3 d (Or.inr hd)
      · simp only [m.sync.polylog.flying, List.length_append, List.length_cons,
          List.length_nil] at a5 ⊢
        omega
    · simp only [hk] at ht
      simp only [Bool.false_eq_true, if_false, Option.some.injEq] at ht
      subst ht
      have hq := ((hp.filter fun c => seek c.event_idx).map fun c => c.event_idx)
      simp only [List.filter_cons, hk] at hq
      simp only [Bool.false_eq_true, if_false] at hq
      rw [← Multiset.coe_eq_coe] at hq
      refine ⟨a1, ?_, a3, a4, ?_⟩
      · rw [← Multiset.coe_eq_coe] at a2 ⊢
        simp only [List.map_append, ← Multiset.coe_add] at a2 ⊢
        rw [← a2, hq]
      · simp only [m.sync.polylog.flying, List.length_append] at a5 ⊢
        omega

/-- Taking the mutex keeps the books. -/
theorem lock_accounted (apropos seek : Nat → Bool) (state : List Nat) (k : Nat)
    (s t : m.sync.polylog) (hs : s.accounted apropos seek state)
    (ht : m.sync.each_idx.lock k s = some t) : t.accounted apropos seek state := by
  obtain ⟨todo, i, event, seeking, waiting, mutex, array, ret, sent⟩ := s
  obtain ⟨a1, a2, a3, a4, a5⟩ := hs
  simp only [m.sync.polylog.flying] at a1 a2 a3 a4 a5
  simp only [m.sync.each_idx.lock] at ht
  cases mutex with
  | some d => simp at ht
  | none =>
    cases hf : waiting.find? (fun c => c.k == k) with
    | none => simp [hf] at ht
    | some c =>
      have hm : c ∈ waiting := List.mem_of_find?_eq_some hf
      have hp : waiting.Perm (c :: waiting.erase c) := List.perm_cons_erase hm
      have hlen : (waiting.erase c).length + 1 = waiting.length := by
        rw [List.length_erase_of_mem hm]
        have := List.length_pos_of_mem hm
        omega
      simp only [hf, Option.some.injEq] at ht
      subst ht
      have hq := hp.map fun c => c.event_idx
      simp only [List.map_cons] at hq
      rw [← Multiset.coe_eq_coe] at hq
      refine ⟨a1, ?_, ?_, a4, ?_⟩
      · rw [← Multiset.coe_eq_coe] at a2 ⊢
        simp only [List.map_append, ← Multiset.coe_add, Option.toList, List.map_cons,
          List.map_nil] at a2 ⊢
        rw [← a2, hq, ← Multiset.cons_coe, ← Multiset.singleton_add]
        rw [← Multiset.cons_coe, ← Multiset.singleton_add]
        simp only [Multiset.coe_nil, add_zero]
        abel
      · intro d hd
        simp only [List.mem_append, Option.toList, List.mem_singleton, List.not_mem_nil,
          or_false] at hd a3
        rcases hd with hd | hd
        · exact a3 d (List.mem_of_mem_erase hd)
        · rw [hd]
          exact a3 c hm
      · simp only [m.sync.polylog.flying, List.length_append, Option.toList,
          List.length_cons, List.length_nil] at a5 ⊢
        omega

/-- A call of `room_state_append` keeps the books. -/
theorem append_accounted (apropos seek : Nat → Bool) (state : List Nat) (k : Nat)
    (s t : m.sync.polylog) (hs : s.accounted apropos seek state)
    (ht : m.sync.each_idx.append k s = some t) : t.accounted apropos seek state := by
  obtain ⟨todo, i, event, seeking, waiting, mutex, array, ret, sent⟩ := s
  obtain ⟨a1, a2, a3, a4, a5⟩ := hs
  simp only [m.sync.polylog.flying] at a1 a2 a3 a4 a5
  simp only [m.sync.each_idx.append] at ht
  cases mutex with
  | none => simp at ht
  | some c =>
    by_cases hk : c.k = k
    · simp only [hk, if_true, Option.some.injEq] at ht
      subst ht
      refine ⟨a1, ?_, ?_, by simp, ?_⟩
      · rw [← Multiset.coe_eq_coe] at a2 ⊢
        simp only [List.map_append, ← Multiset.coe_add, Option.toList, List.map_cons,
          List.map_nil] at a2 ⊢
        rw [← a2]
        simp only [Multiset.coe_nil, add_zero]
        abel
      · intro d hd
        simp only [List.mem_append, Option.toList, List.mem_singleton, List.not_mem_nil,
          or_false] at hd a3
        exact a3 d (Or.inl hd)
      · simp only [m.sync.polylog.flying, List.length_append, Option.toList,
          List.length_cons, List.length_nil] at a5 ⊢
        omega
    · simp [hk] at ht

/-- Every step of a run keeps the books. -/
theorem step_accounted (apropos seek : Nat → Bool) (state : List Nat) (a : m.sync.act)
    (s t : m.sync.polylog) (hs : s.accounted apropos seek state)
    (ht : s.step apropos seek a = some t) : t.accounted apropos seek state := by
  cases a with
  | visit => exact for_each_accounted apropos seek state s t hs ht
  | seek k => exact seek_accounted apropos seek state k s t hs ht
  | lock k => exact lock_accounted apropos seek state k s t hs ht
  | append k => exact append_accounted apropos seek state k s t hs ht

/-- Every run keeps the books. -/
theorem run_accounted (apropos seek : Nat → Bool) (state : List Nat)
    (schedule : List m.sync.act) (s t : m.sync.polylog)
    (hs : s.accounted apropos seek state)
    (ht : m.sync.polylog.run apropos seek schedule s = some t) :
    t.accounted apropos seek state := by
  induction schedule generalizing s with
  | nil =>
    simp only [m.sync.polylog.run, Option.some.injEq] at ht
    subst ht
    exact hs
  | cons a rest ih =>
    simp only [m.sync.polylog.run] at ht
    cases h1 : s.step apropos seek a with
    | none => simp [h1] at ht
    | some s1 =>
      rw [h1] at ht
      exact ih s1 (step_accounted apropos seek state a s s1 hs h1) ht

/-- The books are in order at the start. -/
theorem start_accounted (apropos seek : Nat → Bool) (state : List Nat) :
    (m.sync.polylog.start state).accounted apropos seek state := by
  refine ⟨by simp [m.sync.polylog.start], by simp [m.sync.polylog.start], ?_, ?_, ?_⟩
  · simp [m.sync.polylog.start]
  · simp [m.sync.polylog.start]
  · simp [m.sync.polylog.start, m.sync.polylog.flying]

/-- A step made while no two callbacks in flight share a fetch slot leaves every
callback past its `seek` with its own event in its slot. -/
theorem step_unmixed (apropos seek : Nat → Bool) (a : m.sync.act)
    (s t : m.sync.polylog) (hs : s.unmixed)
    (hn : (s.flying.map fun c => c.i).Nodup)
    (ht : s.step apropos seek a = some t) : t.unmixed := by
  obtain ⟨todo, i, event, seeking, waiting, mutex, array, ret, sent⟩ := s
  obtain ⟨b1, b2⟩ := hs
  simp only [m.sync.polylog.flying, List.append_assoc, List.map_append] at hn b1 b2
  cases a with
  | visit =>
    simp only [m.sync.polylog.step, m.sync.for_each] at ht
    cases todo with
    | nil => simp at ht
    | cons idx rest =>
      simp only [m.sync.concurrent] at ht
      split at ht
      · split at ht
        · simp only [Option.some.injEq] at ht
          subst ht
          exact ⟨b1, b2⟩
        · simp at ht
      · simp only [Option.some.injEq] at ht
        subst ht
        exact ⟨b1, b2⟩
  | seek k =>
    simp only [m.sync.polylog.step, m.sync.each_idx.seek] at ht
    cases hf : seeking.find? (fun c => c.k == k) with
    | none => simp [hf] at ht
    | some c =>
      have hm : c ∈ seeking := List.mem_of_find?_eq_some hf
      simp only [hf] at ht
      split at ht
      · simp only [Option.some.injEq] at ht
        subst ht
        refine ⟨?_, b2⟩
        intro d hd
        simp only [List.mem_append, List.mem_singleton] at hd
        have hdis := (List.nodup_append.mp hn).2.2
        by_cases he : d.i = c.i
        · simp only [he, if_true]
          rcases hd with (hd | hd) | hd
          · exfalso
            refine hdis (List.mem_map.mpr ⟨c, hm, rfl⟩) ?_
            rw [← he]
            exact List.mem_append.mpr (Or.inl (List.mem_map.mpr ⟨d, hd, rfl⟩))
          · rw [hd]
          · exfalso
            refine hdis (List.mem_map.mpr ⟨c, hm, rfl⟩) ?_
            rw [← he]
            exact List.mem_append.mpr (Or.inr (List.mem_map.mpr ⟨d, hd, rfl⟩))
        · simp only [he, if_false]
          rcases hd with (hd | hd) | hd
          · exact b1 d (List.mem_append.mpr (Or.inl hd))
          · rw [hd] at he
            exact absurd rfl he
          · exact b1 d (List.mem_append.mpr (Or.inr hd))
      · simp only [Option.some.injEq] at ht
        subst ht
        exact ⟨b1, b2⟩
  | lock k =>
    simp only [m.sync.polylog.step, m.sync.each_idx.lock] at ht
    cases mutex with
    | some d => simp at ht
    | none =>
      cases hf : waiting.find? (fun c => c.k == k) with
      | none => simp [hf] at ht
      | some c =>
        have hm : c ∈ waiting := List.mem_of_find?_eq_some hf
        simp only [hf, Option.some.injEq] at ht
        subst ht
        refine ⟨?_, b2⟩
        intro d hd
        simp only [List.mem_append, Option.toList, List.mem_singleton, List.not_mem_nil,
          or_false] at hd b1
        rcases hd with hd | hd
        · exact b1 d (List.mem_of_mem_erase hd)
        · rw [hd]
          exact b1 c hm
  | append k =>
    simp only [m.sync.polylog.step, m.sync.each_idx.append] at ht
    cases mutex with
    | none => simp at ht
    | some c =>
      by_cases hk : c.k = k
      · simp only [hk, if_true, Option.some.injEq] at ht
        subst ht
        simp only [List.mem_append, Option.toList, List.mem_singleton, List.not_mem_nil,
          or_false] at b1
        refine ⟨fun d hd => ?_, ?_⟩
        · simp only [List.mem_append, Option.toList, List.not_mem_nil, or_false] at hd
          exact b1 d (Or.inl hd)
        · intro p hp
          simp only [List.mem_append, List.mem_singleton] at hp
          rcases hp with hp | hp
          · exact b2 p hp
          · rw [hp]
            exact b1 c (Or.inr rfl)
      · simp [hk] at ht

/-- A run during which no two callbacks in flight share a fetch slot writes, at
every call, the event of the index passed. -/
theorem run_unmixed (apropos seek : Nat → Bool) (schedule : List m.sync.act)
    (s t : m.sync.polylog) (hs : s.unmixed)
    (ht : m.sync.polylog.run apropos seek schedule s = some t)
    (hn : ∀ n u, m.sync.polylog.run apropos seek (schedule.take n) s = some u →
      (u.flying.map fun c => c.i).Nodup) : t.unmixed := by
  induction schedule generalizing s with
  | nil =>
    simp only [m.sync.polylog.run, Option.some.injEq] at ht
    subst ht
    exact hs
  | cons a rest ih =>
    simp only [m.sync.polylog.run] at ht
    cases h1 : s.step apropos seek a with
    | none => simp [h1] at ht
    | some s1 =>
      rw [h1] at ht
      have h0 := hn 0 s (by simp [m.sync.polylog.run])
      refine ih s1 (step_unmixed apropos seek a s s1 hs h0 h1) ht ?_
      intro n u hu
      refine hn (n + 1) u ?_
      simp only [List.take_succ_cons, m.sync.polylog.run, h1]
      exact hu

/-- A run that passes the check `apart` has, at every moment, no two callbacks
in flight with the same fetch slot. -/
theorem apart_sound (apropos seek : Nat → Bool) (schedule : List m.sync.act)
    (s : m.sync.polylog) (h : m.sync.polylog.apart apropos seek schedule s = true) :
    ∀ n u, m.sync.polylog.run apropos seek (schedule.take n) s = some u →
      (u.flying.map fun c => c.i).Nodup := by
  induction schedule generalizing s with
  | nil =>
    intro n u hu
    simp only [List.take_nil, m.sync.polylog.run, Option.some.injEq] at hu
    subst hu
    simpa [m.sync.polylog.apart] using h
  | cons a rest ih =>
    simp only [m.sync.polylog.apart, Bool.and_eq_true, decide_eq_true_eq] at h
    obtain ⟨h0, h1⟩ := h
    intro n u hu
    cases n with
    | zero =>
      simp only [List.take_zero, m.sync.polylog.run, Option.some.injEq] at hu
      subst hu
      exact h0
    | succ n =>
      simp only [List.take_succ_cons, m.sync.polylog.run] at hu
      cases hs : s.step apropos seek a with
      | none => simp [hs] at hu
      | some s1 =>
        rw [hs] at hu h1
        exact ih s1 h1 n u hu

/-- The schedule `one_by_one` takes a run with no callback in flight to its end. -/
theorem one_by_one_runs (apropos seek : Nat → Bool) (state : List Nat)
    (s : m.sync.polylog) (h1 : s.seeking = []) (h2 : s.waiting = []) (h3 : s.mutex = none)
    (h4 : s.todo = state) :
    ∃ t, m.sync.polylog.run apropos seek (m.sync.one_by_one apropos seek state s._i) s
        = some t ∧ t.todo = [] ∧ t.flying = [] := by
  induction state generalizing s with
  | nil =>
    refine ⟨s, rfl, h4, ?_⟩
    simp [m.sync.polylog.flying, h1, h2, h3]
  | cons idx rest ih =>
    obtain ⟨todo, i, event, seeking, waiting, mutex, array, ret, sent⟩ := s
    simp only at h1 h2 h3 h4
    subst h1 h2 h3 h4
    by_cases ha : apropos idx = true
    · by_cases hk : seek idx = true
      · simp only [m.sync.one_by_one, ha, hk, if_true, List.cons_append, List.nil_append,
          m.sync.polylog.run, m.sync.polylog.step, m.sync.for_each, m.sync.concurrent,
          m.sync.polylog.flying, m.sync.md_size, m.sync.each_idx.seek, m.sync.each_idx.lock,
          m.sync.each_idx.append, List.find?, List.length_nil, List.length_append,
          Option.toList, Nat.zero_lt_succ, beq_self_eq_true, List.erase_cons_head,
          Nat.lt_add_one, zero_add, Nat.ofNat_pos]
        exact ih ⟨rest, _, _, [], [], none, _, _, _⟩ rfl rfl rfl rfl
      · simp only [m.sync.one_by_one, ha, hk, if_true, List.cons_append, List.nil_append,
          m.sync.polylog.run, m.sync.polylog.step, m.sync.for_each, m.sync.concurrent,
          m.sync.polylog.flying, m.sync.md_size, m.sync.each_idx.seek, m.sync.each_idx.lock,
          m.sync.each_idx.append, List.find?, List.length_nil, List.length_append,
          Option.toList, Nat.zero_lt_succ, beq_self_eq_true, List.erase_cons_head,
          Nat.lt_add_one, zero_add, Nat.ofNat_pos, Bool.false_eq_true, if_false]
        exact ih ⟨rest, _, _, [], [], none, _, _, _⟩ rfl rfl rfl rfl
    · simp only [m.sync.one_by_one, ha, m.sync.polylog.run, m.sync.polylog.step,
        m.sync.for_each, Bool.false_eq_true, if_false]
      exact ih ⟨rest, _, _, [], [], none, _, _, _⟩ rfl rfl rfl rfl

/-- When every call wrote the event of its index, the events written are the indexes passed. -/
theorem filterMap_fst_eq (l : List (Option Nat × Nat)) (h : ∀ p ∈ l, p.1 = some p.2) :
    l.filterMap Prod.fst = l.map Prod.snd := by
  induction l with
  | nil => rfl
  | cons p rest ih =>
    have hp := h p (List.mem_cons_self _ _)
    rw [List.filterMap_cons, hp, List.map_cons,
      ih fun q hq => h q (List.mem_cons_of_mem _ hq)]

end ircd
